import Mathlib

/-!
Verification of the core diff algorithm of `allennlp/commands/diff.py`.

The source computes a Myers-style edit script between the `(key, shape)`
projections of two checkpoint state dictionaries (`checkpoint_diff`), and then
classifies every `Keep` step as either a genuine `Keep` or a `Modify` by
computing the root-mean-square difference of the two tensors (`_finalize`).

The embedding below mirrors the source closely:
* tensors are modelled with exact rational entries (`Tensor`), and the
  root-mean-square distance is `Real.sqrt` of the mean squared difference;
* a state dictionary is an association list with unique keys, in iteration
  order;
* the mutable `frontier` dictionary is modelled as a total function
  `Int → _Frontier`; every read the algorithm performs is at a key that was
  previously written (key `1` initially, then the keys of the previous
  distance level), so the default value is irrelevant on executed paths;
* the `while` snake loop is modelled with fuel `a.length + b.length + 1`,
  which is strictly more than the number of iterations the loop can make;
* the coordinate `y = x - k` is a Python `int`; on every state the search
  actually reaches it is nonnegative (this follows from the invariants proved
  below), so it is represented as `(x - k).toNat` where a natural number is
  required;
* the `assert False` after the search loop is modelled by returning `none`.
-/

abbrev Param := String × List Nat

/-- A tensor: a shape together with exact rational entries. -/
structure Tensor where
  shape : List Nat
  data : List ℚ
deriving DecidableEq

instance : Inhabited Tensor := ⟨⟨[], []⟩⟩

/-- Engine-level diff step: `checkpoint_diff`'s search produces only
`Keep`, `Insert` and `Remove` steps. -/
inductive EStep
  | keep (key : String) (shape : List Nat)
  | ins (key : String) (shape : List Nat)
  | rem (key : String) (shape : List Nat)
deriving DecidableEq

/-- Final diff step: after `_finalize`, a `Keep` may have been rewritten into
a `Modify` carrying a real-valued distance. -/
inductive DStep
  | keep (key : String) (shape : List Nat)
  | ins (key : String) (shape : List Nat)
  | rem (key : String) (shape : List Nat)
  | mod (key : String) (shape : List Nat) (distance : ℝ)

/-- Dictionary lookup on an association list: the first binding of the key,
mirroring a Python `dict` (whose keys are unique). -/
def dictGet : List (String × Tensor) → String → Option Tensor
  | [], _ => none
  | kv :: rest, key => if kv.1 = key then some kv.2 else dictGet rest key

/-- `param_list_a = [(k, tuple(v.shape)) for k, v in state_dict_a.items()]`. -/
def paramList (sd : List (String × Tensor)) : List Param :=
  sd.map fun kv => (kv.1, kv.2.shape)

/-- The elementwise squared differences of the two data buffers. -/
def sqDiffs (ta tb : Tensor) : List ℚ :=
  List.zipWith (fun p q => (p - q) ^ 2) ta.data tb.data

/-- `torch.nn.functional.mse_loss(a, b)`: the mean squared elementwise
difference. -/
def msd (ta tb : Tensor) : ℚ :=
  (sqDiffs ta tb).sum / (ta.data.length : ℚ)

/-- `mse_loss(a, b).sqrt().item()`: the root-mean-square difference. -/
noncomputable def rms (ta tb : Tensor) : ℝ :=
  Real.sqrt ((msd ta tb : ℚ) : ℝ)

/-- One step of `_finalize`'s loop body: a `Keep` whose tensors are at
nonzero distance becomes a `Modify` with the same key and shape; every other
step is returned unchanged.  The two dictionary lookups are total with a junk
default; the safety theorem below shows the lookups are always defined on
histories produced by the search. -/
noncomputable def finStep (sda sdb : List (String × Tensor)) : EStep → DStep :=
  fun step =>
    match step with
    | .keep key shape =>
      let a_tensor := (dictGet sda key).getD default
      let b_tensor := (dictGet sdb key).getD default
      let dist := rms a_tensor b_tensor
      if dist ≠ 0 then DStep.mod key shape dist else DStep.keep key shape
    | .ins key shape => DStep.ins key shape
    | .rem key shape => DStep.rem key shape

/-- `_finalize`: rewrite each `Keep` in place as dictated by the tensor
distance; `Insert` and `Remove` pass through unchanged. -/
noncomputable def _finalize (history : List EStep)
    (state_dict_a state_dict_b : List (String × Tensor)) : List DStep :=
  history.map (finStep state_dict_a state_dict_b)

/-- The farthest-right point along a diagonal together with the history that
got it there. -/
structure _Frontier where
  x : Nat
  history : List EStep
deriving DecidableEq

/-- Functional update of the frontier dictionary. -/
def updFr (fr : Int → _Frontier) (k : Int) (v : _Frontier) : Int → _Frontier :=
  fun j => if j = k then v else fr j

/-- `go_down = k == -d or (k != d and frontier[k - 1].x < frontier[k + 1].x)`. -/
def goDown (d : Nat) (k : Int) (fr : Int → _Frontier) : Bool :=
  decide (k = -(d : Int)) ||
    (decide (k ≠ (d : Int)) && decide ((fr (k - 1)).x < (fr (k + 1)).x))

/-- Element of a parameter list at an index, with a junk default (all uses
are guarded by bounds checks). -/
def getP (l : List Param) (i : Nat) : Param := l.getD i ("", [])

/-- The greedy diagonal run: while both indices are in bounds and the next
parameters agree structurally, consume them and record a `Keep`. -/
def snake (a b : List Param) : Nat → Nat → List EStep → Nat → Nat × Nat × List EStep
  | x, y, h, 0 => (x, y, h)
  | x, y, h, fuel + 1 =>
    match a[x]?, b[y]? with
    | some pa, some pb =>
      if pa = pb then snake a b (x + 1) (y + 1) (h ++ [EStep.keep pa.1 pa.2]) fuel
      else (x, y, h)
    | _, _ => (x, y, h)

/-- The body of the search for one diagonal `k` at distance level `d`:
choose the down or right move, record the discrete step, then run the snake.
Returns the new `x`, `y` and history. -/
def kstep (a b : List Param) (d : Nat) (k : Int) (fr : Int → _Frontier) :
    Nat × Nat × List EStep :=
  let gd := goDown d k fr
  let x0 : Nat := if gd then (fr (k + 1)).x else (fr (k - 1)).x + 1
  let h0 : List EStep := if gd then (fr (k + 1)).history else (fr (k - 1)).history
  let y0 : Int := (x0 : Int) - k
  let h1 : List EStep :=
    if 1 ≤ y0 ∧ y0 ≤ (b.length : Int) ∧ gd = true then
      h0 ++ [EStep.ins (getP b (y0 - 1).toNat).1 (getP b (y0 - 1).toNat).2]
    else if 1 ≤ x0 ∧ x0 ≤ a.length then
      h0 ++ [EStep.rem (getP a (x0 - 1)).1 (getP a (x0 - 1)).2]
    else h0
  snake a b x0 y0.toNat h1 (a.length + b.length + 1)

/-- `range(-d, d + 1, 2)`. -/
def krange (d : Nat) : List Int :=
  (List.range (d + 1)).map fun j : Nat => -(d : Int) + 2 * (j : Int)

/-- The inner loop over the diagonals of one distance level: return the
history (`Sum.inl`) as soon as the bottom-right corner is passed, otherwise
record the new frontier point and continue. -/
def innerLoop (a b : List Param) (d : Nat) :
    List Int → (Int → _Frontier) → List EStep ⊕ (Int → _Frontier)
  | [], fr => Sum.inr fr
  | k :: ks, fr =>
    let r := kstep a b d k fr
    if a.length ≤ r.1 ∧ b.length ≤ r.2.1 then Sum.inl r.2.2
    else innerLoop a b d ks (updFr fr k ⟨r.1, r.2.2⟩)

/-- The outer loop over distance levels; an empty remaining range models the
`assert False, "Could not find edit script"` as `none`. -/
def outerLoop (a b : List Param) :
    List Nat → (Int → _Frontier) → Option (List EStep)
  | [], _ => none
  | d :: ds, fr =>
    match innerLoop a b d (krange d) fr with
    | Sum.inl h => some h
    | Sum.inr fr' => outerLoop a b ds fr'

/-- The edit-script search of `checkpoint_diff`, from the parameter lists to
the raw history of `Keep`/`Insert`/`Remove` steps.  The initial frontier is
the dictionary `{1: _Frontier(0, [])}`; all reads are at written keys, so a
constant total function is an exact model. -/
def myersDiff (a b : List Param) : Option (List EStep) :=
  outerLoop a b (List.range (a.length + b.length + 1)) fun _ => ⟨0, []⟩

/-- `checkpoint_diff`: run the search on the `(key, shape)` projections and
classify the result. -/
noncomputable def checkpoint_diff (state_dict_a state_dict_b : List (String × Tensor)) :
    Option (List DStep) :=
  (myersDiff (paramList state_dict_a) (paramList state_dict_b)).map
    fun h => _finalize h state_dict_a state_dict_b

/-! ### The tie-break rule as the specification words it

Modelled from the spec: §4.1 states the tie-break as "go down only if not on
the topmost diagonal (`k != d`) AND the frontier already reached further
right on diagonal `k - 1` than on diagonal `k + 1`", i.e. with the frontier
comparison `frontier[k - 1].x > frontier[k + 1].x`.  The following engine
variant implements that stated policy verbatim, for comparison with the
source's `frontier[k - 1].x < frontier[k + 1].x`. -/

/-- Modelled from the spec: the tie-break condition exactly as the
specification words it (down when diagonal `k - 1` reached strictly further
right than diagonal `k + 1`). -/
def goDownSpec (d : Nat) (k : Int) (fr : Int → _Frontier) : Bool :=
  decide (k = -(d : Int)) ||
    (decide (k ≠ (d : Int)) && decide ((fr (k - 1)).x > (fr (k + 1)).x))

/-- Modelled from the spec: `kstep` with the spec's tie-break. -/
def kstepSpec (a b : List Param) (d : Nat) (k : Int) (fr : Int → _Frontier) :
    Nat × Nat × List EStep :=
  let gd := goDownSpec d k fr
  let x0 : Nat := if gd then (fr (k + 1)).x else (fr (k - 1)).x + 1
  let h0 : List EStep := if gd then (fr (k + 1)).history else (fr (k - 1)).history
  let y0 : Int := (x0 : Int) - k
  let h1 : List EStep :=
    if 1 ≤ y0 ∧ y0 ≤ (b.length : Int) ∧ gd = true then
      h0 ++ [EStep.ins (getP b (y0 - 1).toNat).1 (getP b (y0 - 1).toNat).2]
    else if 1 ≤ x0 ∧ x0 ≤ a.length then
      h0 ++ [EStep.rem (getP a (x0 - 1)).1 (getP a (x0 - 1)).2]
    else h0
  snake a b x0 y0.toNat h1 (a.length + b.length + 1)

/-- Modelled from the spec: the inner loop with the spec's tie-break. -/
def innerLoopSpec (a b : List Param) (d : Nat) :
    List Int → (Int → _Frontier) → List EStep ⊕ (Int → _Frontier)
  | [], fr => Sum.inr fr
  | k :: ks, fr =>
    let r := kstepSpec a b d k fr
    if a.length ≤ r.1 ∧ b.length ≤ r.2.1 then Sum.inl r.2.2
    else innerLoopSpec a b d ks (updFr fr k ⟨r.1, r.2.2⟩)

/-- Modelled from the spec: the outer loop with the spec's tie-break. -/
def outerLoopSpec (a b : List Param) :
    List Nat → (Int → _Frontier) → Option (List EStep)
  | [], _ => none
  | d :: ds, fr =>
    match innerLoopSpec a b d (krange d) fr with
    | Sum.inl h => some h
    | Sum.inr fr' => outerLoopSpec a b ds fr'

/-- Modelled from the spec: the full search with the spec's tie-break. -/
def myersDiffSpec (a b : List Param) : Option (List EStep) :=
  outerLoopSpec a b (List.range (a.length + b.length + 1)) fun _ => ⟨0, []⟩

/-! ### Specification-side definitions -/

/-- Whether an engine step is a `Keep`. -/
def EStep.isKeep : EStep → Bool
  | .keep _ _ => true
  | _ => false

/-- Whether a final step is a `Keep` or a `Modify` (a `Modify` only refines a
`Keep`). -/
def DStep.isKeepLike : DStep → Bool
  | .keep _ _ => true
  | .mod _ _ _ => true
  | _ => false

/-- The number of non-`Keep` steps of an engine history. -/
def nonKeep (h : List EStep) : Nat := h.countP fun s => !s.isKeep

/-- The number of steps of a final script that are neither `Keep` nor
`Modify`. -/
def nonKeepF (h : List DStep) : Nat := h.countP fun s => !s.isKeepLike

/-- Project an engine history to the `(key, shape)` pairs consumed from the
first list: `Keep` and `Remove` steps. -/
def projA (h : List EStep) : List Param :=
  h.filterMap fun s =>
    match s with
    | .keep key shape => some (key, shape)
    | .rem key shape => some (key, shape)
    | .ins _ _ => none

/-- Project an engine history to the `(key, shape)` pairs consumed from the
second list: `Keep` and `Insert` steps. -/
def projB (h : List EStep) : List Param :=
  h.filterMap fun s =>
    match s with
    | .keep key shape => some (key, shape)
    | .ins key shape => some (key, shape)
    | .rem _ _ => none

/-- Project a finalized script to the `(key, shape)` pairs of its `Keep`,
`Modify` and `Remove` steps. -/
def projAF (h : List DStep) : List Param :=
  h.filterMap fun s =>
    match s with
    | .keep key shape => some (key, shape)
    | .mod key shape _ => some (key, shape)
    | .rem key shape => some (key, shape)
    | .ins _ _ => none

/-- Project a finalized script to the `(key, shape)` pairs of its `Keep`,
`Modify` and `Insert` steps. -/
def projBF (h : List DStep) : List Param :=
  h.filterMap fun s =>
    match s with
    | .keep key shape => some (key, shape)
    | .mod key shape _ => some (key, shape)
    | .ins key shape => some (key, shape)
    | .rem _ _ => none

/-- A history is a valid prefix edit script for the prefixes of length `x`
of `a` and `y` of `b`, using exactly `d` non-`Keep` steps. -/
def Valid (a b : List Param) (d x y : Nat) (h : List EStep) : Prop :=
  projA h = a.take x ∧ projB h = b.take y ∧ nonKeep h = d

/-- Reachability in the edit graph of `a` and `b`: `(x, y)` can be reached
from `(0, 0)` using exactly `d` non-diagonal moves, where a diagonal move is
allowed only on structurally equal parameters. -/
inductive Reach (a b : List Param) : Nat → Nat → Nat → Prop
  | base : Reach a b 0 0 0
  | right {d x y} : Reach a b d x y → x < a.length → Reach a b (d + 1) (x + 1) y
  | down {d x y} : Reach a b d x y → y < b.length → Reach a b (d + 1) x (y + 1)
  | diag {d x y} : Reach a b d x y → x < a.length → y < b.length →
      a[x]? = b[y]? → Reach a b d (x + 1) (y + 1)

/-- A run of `n` matching diagonal positions starting at `(xs, ys)`. -/
def DiagChain (a b : List Param) (xs ys n : Nat) : Prop :=
  ∀ i, i < n → a[xs + i]? = b[ys + i]? ∧ xs + i < a.length ∧ ys + i < b.length

/-- An in-grid frontier point: coordinates within both lists, reachable with
`d` non-diagonal moves, and carrying a valid history. -/
def InGrid (a b : List Param) (d x y : Nat) (h : List EStep) : Prop :=
  x ≤ a.length ∧ y ≤ b.length ∧ Reach a b d x y ∧ Valid a b d x y h

/-- An out-of-grid frontier point: at least one coordinate beyond its list,
together with an in-grid reachable ancestor whose distance accounts for the
extra discrete moves. -/
def OutGrid (a b : List Param) (d x y : Nat) : Prop :=
  (a.length < x ∨ b.length < y) ∧
    ∃ d1 x1 y1, Reach a b d1 x1 y1 ∧ x1 ≤ x ∧ y1 ≤ y ∧
      d = d1 + (x - x1) + (y - y1)

/-- The frontier entry on diagonal `k` dominates every point of the edit
graph reachable with `d` non-diagonal moves on that diagonal. -/
def Dom (a b : List Param) (d : Nat) (k : Int) (f : _Frontier) : Prop :=
  ∀ x y : Nat, Reach a b d x y → (x : Int) - y = k → x ≤ f.x

/-- A well-formed frontier entry on diagonal `k` at distance level `d`: its
`y`-coordinate is nonnegative and its point is in-grid with a valid history
or out-of-grid with an accounted ancestor. -/
def GoodEntry (a b : List Param) (d : Nat) (k : Int) (f : _Frontier) : Prop :=
  ∃ y : Nat, (f.x : Int) - k = (y : Int) ∧
    (InGrid a b d f.x y f.history ∨ OutGrid a b d f.x y)

/-- Everything the search records about a stored frontier entry on diagonal
`k` at the end of distance level `d`: it is well formed, it did not pass the
termination test, and it dominates level-`d` reachability on its diagonal. -/
def StoredOK (a b : List Param) (d : Nat) (k : Int) (f : _Frontier) : Prop :=
  GoodEntry a b d k f ∧
  (∀ y : Nat, (f.x : Int) - k = (y : Int) → ¬(a.length ≤ f.x ∧ b.length ≤ y)) ∧
  Dom a b d k f

/-- The number of `Keep` steps of a finalized script. -/
def countKeepF (h : List DStep) : Nat :=
  h.countP fun s => match s with | .keep _ _ => true | _ => false

/-- The number of `Insert` steps of a finalized script. -/
def countInsF (h : List DStep) : Nat :=
  h.countP fun s => match s with | .ins _ _ => true | _ => false

/-- The number of `Remove` steps of a finalized script. -/
def countRemF (h : List DStep) : Nat :=
  h.countP fun s => match s with | .rem _ _ => true | _ => false

/-- The number of `Modify` steps of a finalized script. -/
def countModF (h : List DStep) : Nat :=
  h.countP fun s => match s with | .mod _ _ _ => true | _ => false

/-- The keys of the `Remove` and `Insert` steps of a finalized script, in
script order. -/
def riKeys (h : List DStep) : List String :=
  h.filterMap fun s => match s with
    | .rem key _ => some key
    | .ins key _ => some key
    | _ => none

/-- What a terminating inner-loop iteration guarantees about the returned
history: either it is a valid minimal-level script reaching the corner, or
the corner was already reachable at a strictly smaller distance level. -/
def ReturnOK (a b : List Param) (d : Nat) (h : List EStep) : Prop :=
  (Valid a b d a.length b.length h ∧ Reach a b d a.length b.length) ∨
  (∃ d2, d2 < d ∧ Reach a b d2 a.length b.length)

/-- Reference longest-common-subsequence length over structural equality of
`(key, shape)` pairs. -/
def lcsLen : List Param → List Param → Nat
  | [], _ => 0
  | _ :: _, [] => 0
  | p :: ps, q :: qs =>
    if p = q then lcsLen ps qs + 1
    else max (lcsLen (p :: ps) qs) (lcsLen ps (q :: qs))
termination_by l₁ l₂ => l₁.length + l₂.length
decreasing_by all_goals (simp only [List.length_cons]; omega)

open List

/-! ### Projection and counting lemmas -/

theorem projA_cons_keep (k : String) (s : List Nat) (h : List EStep) :
    projA (EStep.keep k s :: h) = (k, s) :: projA h := rfl

theorem projA_cons_rem (k : String) (s : List Nat) (h : List EStep) :
    projA (EStep.rem k s :: h) = (k, s) :: projA h := rfl

theorem projA_cons_ins (k : String) (s : List Nat) (h : List EStep) :
    projA (EStep.ins k s :: h) = projA h := rfl

theorem projB_cons_keep (k : String) (s : List Nat) (h : List EStep) :
    projB (EStep.keep k s :: h) = (k, s) :: projB h := rfl

theorem projB_cons_ins (k : String) (s : List Nat) (h : List EStep) :
    projB (EStep.ins k s :: h) = (k, s) :: projB h := rfl

theorem projB_cons_rem (k : String) (s : List Nat) (h : List EStep) :
    projB (EStep.rem k s :: h) = projB h := rfl

theorem projA_append (h₁ h₂ : List EStep) :
    projA (h₁ ++ h₂) = projA h₁ ++ projA h₂ := by
  simp [projA]

theorem projB_append (h₁ h₂ : List EStep) :
    projB (h₁ ++ h₂) = projB h₁ ++ projB h₂ := by
  simp [projB]

theorem nonKeep_nil : nonKeep [] = 0 := rfl

theorem nonKeep_append (h₁ h₂ : List EStep) :
    nonKeep (h₁ ++ h₂) = nonKeep h₁ + nonKeep h₂ := by
  simp [nonKeep]

theorem nonKeep_keep (k : String) (s : List Nat) (h : List EStep) :
    nonKeep (EStep.keep k s :: h) = nonKeep h := by
  simp [nonKeep, List.countP_cons, EStep.isKeep]

theorem nonKeep_ins (k : String) (s : List Nat) (h : List EStep) :
    nonKeep (EStep.ins k s :: h) = nonKeep h + 1 := by
  simp [nonKeep, List.countP_cons, EStep.isKeep]

theorem nonKeep_rem (k : String) (s : List Nat) (h : List EStep) :
    nonKeep (EStep.rem k s :: h) = nonKeep h + 1 := by
  simp [nonKeep, List.countP_cons, EStep.isKeep]

theorem mem_projA {h : List EStep} {key : String} {s : List Nat} :
    (key, s) ∈ projA h ↔ EStep.keep key s ∈ h ∨ EStep.rem key s ∈ h := by
  simp only [projA, List.mem_filterMap]
  constructor
  · rintro ⟨st, hst, hf⟩
    cases st <;> simp_all
  · rintro (hm | hm)
    · exact ⟨_, hm, rfl⟩
    · exact ⟨_, hm, rfl⟩

theorem mem_projB {h : List EStep} {key : String} {s : List Nat} :
    (key, s) ∈ projB h ↔ EStep.keep key s ∈ h ∨ EStep.ins key s ∈ h := by
  simp only [projB, List.mem_filterMap]
  constructor
  · rintro ⟨st, hst, hf⟩
    cases st <;> simp_all
  · rintro (hm | hm)
    · exact ⟨_, hm, rfl⟩
    · exact ⟨_, hm, rfl⟩

theorem eq_map_keep_of {h : List EStep} {l : List Param}
    (h0 : nonKeep h = 0) (hp : projA h = l) :
    h = l.map fun p => EStep.keep p.1 p.2 := by
  induction h generalizing l with
  | nil =>
    have hl : l = [] := by simpa [projA] using hp.symm
    subst hl; rfl
  | cons st t ih =>
    cases st with
    | keep k s =>
      rw [projA_cons_keep] at hp
      rw [nonKeep_keep] at h0
      rw [← hp, List.map_cons]
      exact congrArg _ (ih h0 rfl)
    | ins k s => rw [nonKeep_ins] at h0; omega
    | rem k s => rw [nonKeep_rem] at h0; omega

/-! ### Snake lemmas -/

theorem snake_step (a b : List Param) (x y : Nat) (h : List EStep) (n : Nat)
    {pa pb : Param} (ha : a[x]? = some pa) (hb : b[y]? = some pb) (hpq : pa = pb) :
    snake a b x y h (n + 1) =
      snake a b (x + 1) (y + 1) (h ++ [EStep.keep pa.1 pa.2]) n := by
  simp [snake, ha, hb, hpq]

theorem snake_stop_ne (a b : List Param) (x y : Nat) (h : List EStep) (n : Nat)
    {pa pb : Param} (ha : a[x]? = some pa) (hb : b[y]? = some pb) (hpq : pa ≠ pb) :
    snake a b x y h (n + 1) = (x, y, h) := by
  simp [snake, ha, hb, hpq]

theorem snake_stop_none (a b : List Param) (x y : Nat) (h : List EStep) (n : Nat)
    (hnone : a[x]? = none ∨ b[y]? = none) :
    snake a b x y h (n + 1) = (x, y, h) := by
  rcases hnone with hn | hn
  · simp [snake, hn]
  · cases ha : a[x]? <;> simp [snake, ha, hn]

theorem snake_x_ge (a b : List Param) :
    ∀ (fuel x y : Nat) (h : List EStep), x ≤ (snake a b x y h fuel).1 := by
  intro fuel
  induction fuel with
  | zero => intro x y h; simp [snake]
  | succ n ih =>
    intro x y h
    rcases ha : a[x]? with _ | pa
    · rw [snake_stop_none a b x y h n (Or.inl ha)]
    rcases hb : b[y]? with _ | pb
    · rw [snake_stop_none a b x y h n (Or.inr hb)]
    by_cases hpq : pa = pb
    · rw [snake_step a b x y h n ha hb hpq]
      exact le_trans (Nat.le_succ x) (ih (x + 1) (y + 1) _)
    · rw [snake_stop_ne a b x y h n ha hb hpq]

theorem snake_noop (a b : List Param) (x y : Nat) (h : List EStep)
    (hout : a.length ≤ x ∨ b.length ≤ y) :
    ∀ fuel, snake a b x y h fuel = (x, y, h) := by
  intro fuel
  cases fuel with
  | zero => rfl
  | succ n =>
    apply snake_stop_none
    rcases hout with hx | hy
    · exact Or.inl (List.getElem?_eq_none hx)
    · exact Or.inr (List.getElem?_eq_none hy)

theorem snake_shape (a b : List Param) :
    ∀ (fuel x y : Nat) (h : List EStep),
    ∃ s t, snake a b x y h fuel = (x + s, y + s, h ++ t) ∧
      ∀ e ∈ t, e.isKeep = true := by
  intro fuel
  induction fuel with
  | zero => intro x y h; exact ⟨0, [], by simp [snake], by simp⟩
  | succ n ih =>
    intro x y h
    rcases ha : a[x]? with _ | pa
    · exact ⟨0, [], by rw [snake_stop_none a b x y h n (Or.inl ha)]; simp, by simp⟩
    rcases hb : b[y]? with _ | pb
    · exact ⟨0, [], by rw [snake_stop_none a b x y h n (Or.inr hb)]; simp, by simp⟩
    by_cases hpq : pa = pb
    · obtain ⟨s, t, hs, ht⟩ := ih (x + 1) (y + 1) (h ++ [EStep.keep pa.1 pa.2])
      refine ⟨s + 1, EStep.keep pa.1 pa.2 :: t, ?_, ?_⟩
      · rw [snake_step a b x y h n ha hb hpq, hs]
        simp only [Prod.mk.injEq, List.append_assoc, List.singleton_append]
        refine ⟨by omega, by omega, ?_⟩
        trivial
      · intro e he
        rcases List.mem_cons.mp he with rfl | he'
        · rfl
        · exact ht e he'
    · exact ⟨0, [], by rw [snake_stop_ne a b x y h n ha hb hpq]; simp, by simp⟩

theorem lt_length_of_getElem?_some {α : Type} {l : List α} {i : Nat} {v : α}
    (h : l[i]? = some v) : i < l.length := by
  by_contra hc
  rw [List.getElem?_eq_none (Nat.le_of_not_lt hc)] at h
  cases h

theorem snake_inv (a b : List Param) (d : Nat) :
    ∀ (fuel x y : Nat) (h : List EStep), x ≤ a.length → y ≤ b.length →
    Reach a b d x y → Valid a b d x y h →
    InGrid a b d (snake a b x y h fuel).1 (snake a b x y h fuel).2.1
      (snake a b x y h fuel).2.2 := by
  intro fuel
  induction fuel with
  | zero => intro x y h hx hy hr hv; exact ⟨hx, hy, hr, hv⟩
  | succ n ih =>
    intro x y h hx hy hr hv
    rcases ha : a[x]? with _ | pa
    · rw [snake_stop_none a b x y h n (Or.inl ha)]; exact ⟨hx, hy, hr, hv⟩
    rcases hb : b[y]? with _ | pb
    · rw [snake_stop_none a b x y h n (Or.inr hb)]; exact ⟨hx, hy, hr, hv⟩
    by_cases hpq : pa = pb
    · rw [snake_step a b x y h n ha hb hpq]
      have hxlt : x < a.length := lt_length_of_getElem?_some ha
      have hylt : y < b.length := lt_length_of_getElem?_some hb
      obtain ⟨hpa, hpb, hnk⟩ := hv
      apply ih
      · omega
      · omega
      · exact Reach.diag hr hxlt hylt (by rw [ha, hb, hpq])
      · refine ⟨?_, ?_, ?_⟩
        · rw [projA_append, hpa, List.take_succ, ha]
          rfl
        · rw [projB_append, hpb, List.take_succ, hb, hpq]
          rfl
        · rw [nonKeep_append, hnk]
          simp [nonKeep, List.countP_cons, EStep.isKeep]
    · rw [snake_stop_ne a b x y h n ha hb hpq]; exact ⟨hx, hy, hr, hv⟩

theorem snake_ge (a b : List Param) :
    ∀ (fuel x y xr : Nat) (h : List EStep),
    xr ≤ x + fuel →
    (∀ t, x + t < xr → a[x + t]? = b[y + t]? ∧ x + t < a.length ∧ y + t < b.length) →
    xr ≤ (snake a b x y h fuel).1 := by
  intro fuel
  induction fuel with
  | zero =>
    intro x y xr h hle _
    simpa [snake] using hle
  | succ n ih =>
    intro x y xr h hle hchain
    by_cases hxr : xr ≤ x
    · exact le_trans hxr (snake_x_ge a b (n + 1) x y h)
    have hlt : x < xr := Nat.lt_of_not_le hxr
    obtain ⟨hm, hxa, hyb⟩ := hchain 0 (by omega)
    simp only [Nat.add_zero] at hm hxa hyb
    obtain ⟨pa, ha⟩ : ∃ pa, a[x]? = some pa := ⟨_, List.getElem?_eq_getElem hxa⟩
    have hb : b[y]? = some pa := by rw [← hm]; exact ha
    rw [snake_step a b x y h n ha hb rfl]
    apply ih
    · omega
    · intro t ht
      have h' := hchain (t + 1) (by omega)
      have e1 : x + (t + 1) = x + 1 + t := by omega
      have e2 : y + (t + 1) = y + 1 + t := by omega
      rw [e1, e2] at h'
      exact h'

/-! ### Reachability lemmas -/

theorem reach_le {a b : List Param} {d x y : Nat} (h : Reach a b d x y) :
    x ≤ a.length ∧ y ≤ b.length := by
  induction h with
  | base => exact ⟨Nat.zero_le _, Nat.zero_le _⟩
  | right _ hx ih => exact ⟨hx, ih.2⟩
  | down _ hy ih => exact ⟨ih.1, hy⟩
  | diag _ hx hy _ _ => exact ⟨hx, hy⟩

theorem reach_diag_bound {a b : List Param} {d x y : Nat} (h : Reach a b d x y) :
    (x : Int) - y ≤ d ∧ -(d : Int) ≤ (x : Int) - y := by
  induction h with
  | base => simp
  | right _ _ ih => omega
  | down _ _ ih => omega
  | diag _ _ _ _ ih => omega

theorem reach_parity {a b : List Param} {d x y : Nat} (h : Reach a b d x y) :
    (x + y + d) % 2 = 0 := by
  induction h with
  | base => rfl
  | right _ _ ih => omega
  | down _ _ ih => omega
  | diag _ _ _ _ ih => omega

theorem reach_rights {a b : List Param} {d x y : Nat} (h : Reach a b d x y) :
    ∀ j, x + j ≤ a.length → Reach a b (d + j) (x + j) y := by
  intro j
  induction j with
  | zero => intro _; exact h
  | succ n ih =>
    intro hle
    have h1 : x + n < a.length := by omega
    exact Reach.right (ih (le_of_lt h1)) h1

theorem reach_downs {a b : List Param} {d x y : Nat} (h : Reach a b d x y) :
    ∀ j, y + j ≤ b.length → Reach a b (d + j) x (y + j) := by
  intro j
  induction j with
  | zero => intro _; exact h
  | succ n ih =>
    intro hle
    have h1 : y + n < b.length := by omega
    exact Reach.down (ih (le_of_lt h1)) h1

theorem reach_corner_extend {a b : List Param} {d1 x1 y1 : Nat}
    (h : Reach a b d1 x1 y1) :
    Reach a b (d1 + (a.length - x1) + (b.length - y1)) a.length b.length := by
  have hle := reach_le h
  have h1 := reach_rights h (a.length - x1) (by omega)
  have e : x1 + (a.length - x1) = a.length := by omega
  rw [e] at h1
  have h2 := reach_downs h1 (b.length - y1) (by omega)
  have e2 : y1 + (b.length - y1) = b.length := by omega
  rw [e2] at h2
  exact h2

theorem reach_trans {a1 a2 b1 b2 : List Param} {d0 d x y : Nat}
    (h0 : Reach (a1 ++ a2) (b1 ++ b2) d0 a1.length b1.length)
    (h : Reach a2 b2 d x y) :
    Reach (a1 ++ a2) (b1 ++ b2) (d0 + d) (a1.length + x) (b1.length + y) := by
  induction h with
  | base => simpa using h0
  | @right d1 x1 y1 h' hx ih =>
    exact Reach.right ih (by simp only [List.length_append, Nat.add_eq]; omega)
  | @down d1 x1 y1 h' hy ih =>
    exact Reach.down ih (by simp only [List.length_append, Nat.add_eq]; omega)
  | @diag d1 x1 y1 h' hx hy hm ih =>
    have hmm : (a1 ++ a2)[a1.length + x1]? = (b1 ++ b2)[b1.length + y1]? := by
      rw [List.getElem?_append_right (Nat.le_add_right _ _),
        List.getElem?_append_right (Nat.le_add_right _ _)]
      have e1 : a1.length + x1 - a1.length = x1 := by omega
      have e2 : b1.length + y1 - b1.length = y1 := by omega
      rw [e1, e2]
      exact hm
    exact Reach.diag ih (by simp only [List.length_append, Nat.add_eq]; omega)
      (by simp only [List.length_append, Nat.add_eq]; omega) hmm

/-! ### Common subsequences and the reference LCS length -/

theorem sublist_tail_of_cons {α : Type} {c : α} {s t : List α}
    (h : (c :: s) <+ t) : s <+ t :=
  (List.sublist_cons_self c s).trans h

theorem sublist_of_cons_of_ne {α : Type} {c x : α} {s t : List α}
    (h : (c :: s) <+ (x :: t)) (hne : c ≠ x) : (c :: s) <+ t := by
  cases h with
  | cons _ h' => exact h'
  | cons₂ _ h' => exact absurd rfl hne

theorem sublist_cons_decomp {α : Type} {c : α} {s l : List α} (h : (c :: s) <+ l) :
    ∃ l1 l2, l = l1 ++ c :: l2 ∧ s <+ l2 := by
  induction l with
  | nil => cases h
  | cons x t ih =>
    cases h with
    | cons _ h' =>
      obtain ⟨l1, l2, rfl, hs⟩ := ih h'
      exact ⟨x :: l1, l2, rfl, hs⟩
    | cons₂ _ h' =>
      exact ⟨[], t, rfl, h'⟩

theorem take_sublist_take (l : List Param) {m n : Nat} (h : m ≤ n) :
    l.take m <+ l.take n := by
  have e : (l.take n).take m = l.take m := by
    rw [List.take_take, Nat.min_eq_left h]
  rw [← e]
  exact List.take_sublist m (l.take n)

theorem lcsLen_ge_subseq :
    ∀ (n : Nat) (s a b : List Param), a.length + b.length ≤ n →
    s <+ a → s <+ b → s.length ≤ lcsLen a b := by
  intro n
  induction n with
  | zero =>
    intro s a b hn ha _
    have ha0 : a = [] := by
      cases a with
      | nil => rfl
      | cons p ps => simp at hn
    subst ha0
    have : s = [] := List.sublist_nil.mp ha
    simp [this]
  | succ m ih =>
    intro s a b hn ha hb
    match a, b with
    | [], _ =>
      have : s = [] := List.sublist_nil.mp ha
      simp [this]
    | p :: ps, [] =>
      have : s = [] := List.sublist_nil.mp hb
      simp [this, lcsLen]
    | p :: ps, q :: qs =>
      rw [lcsLen]
      by_cases hpq : p = q
      · rw [if_pos hpq]
        cases s with
        | nil => simp
        | cons c s' =>
          by_cases hcp : c = p
          · have hsa : s' <+ ps := by
              cases ha with
              | cons _ h' => exact sublist_tail_of_cons h'
              | cons₂ _ h' => exact h'
            have hsb : s' <+ qs := by
              cases hb with
              | cons _ h' => exact sublist_tail_of_cons h'
              | cons₂ _ h' => exact h'
            have := ih s' ps qs (by simp at hn; omega) hsa hsb
            simp only [List.length_cons]
            omega
          · have hsa : (c :: s') <+ ps := sublist_of_cons_of_ne ha hcp
            have hsb : (c :: s') <+ qs :=
              sublist_of_cons_of_ne hb (by rw [← hpq] at *; exact hcp)
            have := ih (c :: s') ps qs (by simp at hn; omega) hsa hsb
            omega
      · rw [if_neg hpq]
        cases s with
        | nil => simp
        | cons c s' =>
          by_cases hcp : c = p
          · have hcq : c ≠ q := by rw [hcp]; exact hpq
            have hsb : (c :: s') <+ qs := sublist_of_cons_of_ne hb hcq
            have := ih (c :: s') (p :: ps) qs (by simp at hn ⊢; omega) ha hsb
            have hle : lcsLen (p :: ps) qs ≤
                max (lcsLen (p :: ps) qs) (lcsLen ps (q :: qs)) := le_max_left _ _
            omega
          · have hsa : (c :: s') <+ ps := sublist_of_cons_of_ne ha hcp
            have := ih (c :: s') ps (q :: qs) (by simp at hn ⊢; omega) hsa hb
            have hle : lcsLen ps (q :: qs) ≤
                max (lcsLen (p :: ps) qs) (lcsLen ps (q :: qs)) := le_max_right _ _
            omega

theorem lcsLen_exists :
    ∀ (n : Nat) (a b : List Param), a.length + b.length ≤ n →
    ∃ s, s <+ a ∧ s <+ b ∧ s.length = lcsLen a b := by
  intro n
  induction n with
  | zero =>
    intro a b hn
    have ha0 : a = [] := by
      cases a with
      | nil => rfl
      | cons p ps => simp at hn
    subst ha0
    exact ⟨[], List.nil_sublist _, List.nil_sublist _, by simp [lcsLen]⟩
  | succ m ih =>
    intro a b hn
    match a, b with
    | [], _ => exact ⟨[], List.nil_sublist _, List.nil_sublist _, by simp [lcsLen]⟩
    | p :: ps, [] => exact ⟨[], List.nil_sublist _, List.nil_sublist _, by simp [lcsLen]⟩
    | p :: ps, q :: qs =>
      rw [lcsLen]
      by_cases hpq : p = q
      · rw [if_pos hpq]
        obtain ⟨s, hsa, hsb, hlen⟩ := ih ps qs (by simp at hn; omega)
        refine ⟨p :: s, List.Sublist.cons₂ p hsa, ?_, by simp [hlen]⟩
        rw [hpq]
        exact List.Sublist.cons₂ q hsb
      · rw [if_neg hpq]
        rcases le_total (lcsLen (p :: ps) qs) (lcsLen ps (q :: qs)) with hc | hc
        · obtain ⟨s, hsa, hsb, hlen⟩ := ih ps (q :: qs) (by simp at hn ⊢; omega)
          refine ⟨s, hsa.cons p, hsb, ?_⟩
          rw [hlen, Nat.max_eq_right hc]
        · obtain ⟨s, hsa, hsb, hlen⟩ := ih (p :: ps) qs (by simp at hn ⊢; omega)
          refine ⟨s, hsa, hsb.cons q, ?_⟩
          rw [hlen, Nat.max_eq_left hc]

theorem reach_of_subseq :
    ∀ (s a b : List Param), s <+ a → s <+ b →
    ∃ d, d + 2 * s.length = a.length + b.length ∧ Reach a b d a.length b.length := by
  intro s
  induction s with
  | nil =>
    intro a b _ _
    refine ⟨a.length + b.length, by simp, ?_⟩
    have h1 := reach_rights (a := a) (b := b) Reach.base a.length (by omega)
    simp only [Nat.zero_add] at h1
    have h2 := reach_downs h1 b.length (by omega)
    simpa using h2
  | cons c s' ih =>
    intro a b ha hb
    obtain ⟨a1, a2, rfl, hsa⟩ := sublist_cons_decomp ha
    obtain ⟨b1, b2, rfl, hsb⟩ := sublist_cons_decomp hb
    obtain ⟨d', hd', hr'⟩ := ih a2 b2 hsa hsb
    have hr1 := reach_rights (a := a1 ++ c :: a2) (b := b1 ++ c :: b2)
      Reach.base a1.length (by simp <;> omega)
    simp only [Nat.zero_add] at hr1
    have hr2 := reach_downs hr1 b1.length (by simp <;> omega)
    simp only [Nat.zero_add] at hr2
    have hm : (a1 ++ c :: a2)[a1.length]? = (b1 ++ c :: b2)[b1.length]? := by
      rw [List.getElem?_append_right (Nat.le_refl _),
        List.getElem?_append_right (Nat.le_refl _)]
      simp
    have hr3 := Reach.diag hr2 (by simp <;> omega) (by simp <;> omega) hm
    have hca : a1 ++ c :: a2 = (a1 ++ [c]) ++ a2 := by simp
    have hcb : b1 ++ c :: b2 = (b1 ++ [c]) ++ b2 := by simp
    refine ⟨a1.length + b1.length + d', ?_, ?_⟩
    · simp only [List.length_cons, List.length_append]
      omega
    · rw [hca, hcb]
      have hr3' : Reach ((a1 ++ [c]) ++ a2) ((b1 ++ [c]) ++ b2)
          (a1.length + b1.length) (a1 ++ [c]).length (b1 ++ [c]).length := by
        rw [← hca, ← hcb]
        simpa using hr3
      have htr := reach_trans hr3' hr'
      have e1 : (a1 ++ [c]).length + a2.length = ((a1 ++ [c]) ++ a2).length := by
        simp <;> omega
      have e2 : (b1 ++ [c]).length + b2.length = ((b1 ++ [c]) ++ b2).length := by
        simp <;> omega
      rwa [e1, e2] at htr

theorem reach_gives_subseq {a b : List Param} {d x y : Nat} (h : Reach a b d x y) :
    ∃ s : List Param, s <+ a.take x ∧ s <+ b.take y ∧ d + 2 * s.length = x + y := by
  induction h with
  | base => exact ⟨[], by simp, by simp, rfl⟩
  | @right d1 x1 y1 h' hx ih =>
    obtain ⟨s, hsa, hsb, hd⟩ := ih
    exact ⟨s, hsa.trans (take_sublist_take a (Nat.le_succ x1)), hsb, by omega⟩
  | @down d1 x1 y1 h' hy ih =>
    obtain ⟨s, hsa, hsb, hd⟩ := ih
    exact ⟨s, hsa, hsb.trans (take_sublist_take b (Nat.le_succ y1)), by omega⟩
  | @diag d1 x1 y1 h' hx hy hm ih =>
    obtain ⟨s, hsa, hsb, hd⟩ := ih
    obtain ⟨pa, hpa⟩ : ∃ pa, a[x1]? = some pa := ⟨_, List.getElem?_eq_getElem hx⟩
    have hpb : b[y1]? = some pa := by rw [← hm]; exact hpa
    refine ⟨s ++ [pa], ?_, ?_, by simp; omega⟩
    · rw [List.take_succ, hpa]
      exact hsa.append (List.Sublist.refl _)
    · rw [List.take_succ, hpb]
      exact hsb.append (List.Sublist.refl _)

theorem diagchain_zero (a b : List Param) (xs ys : Nat) : DiagChain a b xs ys 0 := by
  intro i hi
  exact absurd hi (Nat.not_lt_zero i)

theorem diagchain_extend {a b : List Param} {xs ys n : Nat}
    (hc : DiagChain a b xs ys n) (hm : a[xs + n]? = b[ys + n]?)
    (hxa : xs + n < a.length) (hyb : ys + n < b.length) :
    DiagChain a b xs ys (n + 1) := by
  intro i hi
  rcases Nat.lt_or_ge i n with h | h
  · exact hc i h
  · have : i = n := by omega
    subst this
    exact ⟨hm, hxa, hyb⟩

theorem reach_inv {a b : List Param} :
    ∀ {d x y : Nat}, Reach a b d x y →
    (d = 0 ∧ ∃ n, x = n ∧ y = n ∧ DiagChain a b 0 0 n) ∨
    (∃ d' xp yp xs ys n, d = d' + 1 ∧ Reach a b d' xp yp ∧
      ((xs = xp + 1 ∧ ys = yp ∧ xp < a.length) ∨
        (xs = xp ∧ ys = yp + 1 ∧ yp < b.length)) ∧
      x = xs + n ∧ y = ys + n ∧ DiagChain a b xs ys n) := by
  intro d x y h
  induction h with
  | base => exact Or.inl ⟨rfl, 0, rfl, rfl, diagchain_zero a b 0 0⟩
  | @right d1 x1 y1 h' hx ih =>
    exact Or.inr ⟨d1, x1, y1, x1 + 1, y1, 0, rfl, h', Or.inl ⟨rfl, rfl, hx⟩,
      rfl, rfl, diagchain_zero a b (x1 + 1) y1⟩
  | @down d1 x1 y1 h' hy ih =>
    exact Or.inr ⟨d1, x1, y1, x1, y1 + 1, 0, rfl, h', Or.inr ⟨rfl, rfl, hy⟩,
      rfl, rfl, diagchain_zero a b x1 (y1 + 1)⟩
  | @diag d1 x1 y1 h' hx hy hm ih =>
    rcases ih with ⟨hd0, n, hx1, hy1, hc⟩ | ⟨d', xp, yp, xs, ys, n, hd, hp, hmv, hx1, hy1, hc⟩
    · left
      refine ⟨hd0, n + 1, by omega, by omega, ?_⟩
      refine diagchain_extend hc ?_ ?_ ?_
      · have hm' := hm
        rw [hx1, hy1] at hm'
        simpa using hm'
      · have hx' := hx
        rw [hx1] at hx'
        simpa using hx'
      · have hy' := hy
        rw [hy1] at hy'
        simpa using hy' 
    · subst hd
      subst hx1
      subst hy1
      right
      refine ⟨d', xp, yp, xs, ys, n + 1, rfl, hp, hmv, by omega, by omega, ?_⟩
      exact diagchain_extend hc hm hx hy

/-! ### Frontier-step lemmas -/

theorem getP_eq_getElem (l : List Param) {i : Nat} (h : i < l.length) :
    getP l i = l.get ⟨i, h⟩ := by
  rw [getP, List.getD_eq_getElem?_getD, List.getElem?_eq_getElem h]
  rfl

theorem mem_krange_iff {d : Nat} {k : Int} :
    k ∈ krange d ↔ -(d : Int) ≤ k ∧ k ≤ d ∧ (k + d) % 2 = 0 := by
  simp only [krange, List.mem_map, List.mem_range]
  constructor
  · rintro ⟨j, hj, rfl⟩
    omega
  · rintro ⟨h1, h2, h3⟩
    refine ⟨((k + d) / 2).toNat, by omega, by omega⟩

theorem krange_nodup (d : Nat) : (krange d).Nodup := by
  refine List.Nodup.map ?_ (List.nodup_range (d + 1))
  intro j1 j2 h
  have h' : -(d : Int) + 2 * (j1 : Int) = -(d : Int) + 2 * (j2 : Int) := h
  omega

theorem goDown_iff {d : Nat} {k : Int} {fr : Int → _Frontier} :
    goDown d k fr = true ↔
      (k = -(d : Int) ∨ (k ≠ (d : Int) ∧ (fr (k - 1)).x < (fr (k + 1)).x)) := by
  simp [goDown]

theorem snake_entry (a b : List Param) (d : Nat) (x0 yc : Nat) (h1 : List EStep)
    (hgrid : InGrid a b d x0 yc h1 ∨ OutGrid a b d x0 yc) :
    ∃ x' y' h', snake a b x0 yc h1 (a.length + b.length + 1) = (x', y', h') ∧
      (x' : Int) - y' = (x0 : Int) - yc ∧
      (InGrid a b d x' y' h' ∨ OutGrid a b d x' y') := by
  rcases hgrid with hin | hout
  · obtain ⟨hx, hy, hr, hv⟩ := hin
    have hres := snake_inv a b d (a.length + b.length + 1) x0 yc h1 hx hy hr hv
    obtain ⟨s, t, hs, _⟩ := snake_shape a b (a.length + b.length + 1) x0 yc h1
    rw [hs] at hres
    exact ⟨x0 + s, yc + s, h1 ++ t, hs, by omega, Or.inl hres⟩
  · have hle : a.length ≤ x0 ∨ b.length ≤ yc := by
      rcases hout.1 with h | h
      · exact Or.inl (le_of_lt h)
      · exact Or.inr (le_of_lt h)
    have hnoop := snake_noop a b x0 yc h1 hle (a.length + b.length + 1)
    exact ⟨x0, yc, h1, hnoop, by omega, Or.inr hout⟩

theorem entry_step_down (a b : List Param) {dm x0 ye : Nat} {h0 : List EStep}
    (hgrid : InGrid a b dm x0 ye h0 ∨ OutGrid a b dm x0 ye)
    (hy : ye + 1 ≤ b.length) :
    InGrid a b (dm + 1) x0 (ye + 1)
      (h0 ++ [EStep.ins (getP b ye).1 (getP b ye).2]) ∨
    OutGrid a b (dm + 1) x0 (ye + 1) := by
  rcases hgrid with ⟨hx, _, hr, hpa, hpb, hnk⟩ | ⟨hob, d1, x1, y1, hr1, hx1, hy1, hd1⟩
  · left
    have hylt : ye < b.length := hy
    refine ⟨hx, hy, Reach.down hr hylt, ?_, ?_, ?_⟩
    · rw [projA_append, hpa]
      simp [projA]
    · rw [projB_append, hpb, List.take_succ, List.getElem?_eq_getElem hylt,
        getP_eq_getElem b hylt]
      rfl
    · rw [nonKeep_append, hnk]
      simp [nonKeep, List.countP_cons, EStep.isKeep]
  · right
    have hax : a.length < x0 := by
      rcases hob with h | h
      · exact h
      · omega
    exact ⟨Or.inl hax, d1, x1, y1, hr1, hx1, by omega, by omega⟩

theorem entry_step_down_out (a b : List Param) {dm x0 ye : Nat} {h0 : List EStep}
    (hgrid : InGrid a b dm x0 ye h0 ∨ OutGrid a b dm x0 ye)
    (hy : b.length < ye + 1) :
    OutGrid a b (dm + 1) x0 (ye + 1) := by
  rcases hgrid with ⟨hx, hyle, hr, _⟩ | ⟨hob, d1, x1, y1, hr1, hx1, hy1, hd1⟩
  · exact ⟨Or.inr (by omega), dm, x0, ye, hr, le_refl _, by omega, by omega⟩
  · refine ⟨?_, d1, x1, y1, hr1, hx1, by omega, by omega⟩
    rcases hob with h | h
    · exact Or.inl h
    · exact Or.inr (by omega)

theorem entry_step_right (a b : List Param) {dm x0 ye : Nat} {h0 : List EStep}
    (hgrid : InGrid a b dm x0 ye h0 ∨ OutGrid a b dm x0 ye)
    (hx : x0 + 1 ≤ a.length) :
    InGrid a b (dm + 1) (x0 + 1) ye
      (h0 ++ [EStep.rem (getP a x0).1 (getP a x0).2]) ∨
    OutGrid a b (dm + 1) (x0 + 1) ye := by
  rcases hgrid with ⟨_, hyle, hr, hpa, hpb, hnk⟩ | ⟨hob, d1, x1, y1, hr1, hx1, hy1, hd1⟩
  · left
    have hxlt : x0 < a.length := hx
    refine ⟨hx, hyle, Reach.right hr hxlt, ?_, ?_, ?_⟩
    · rw [projA_append, hpa, List.take_succ, List.getElem?_eq_getElem hxlt,
        getP_eq_getElem a hxlt]
      rfl
    · rw [projB_append, hpb]
      simp [projB]
    · rw [nonKeep_append, hnk]
      simp [nonKeep, List.countP_cons, EStep.isKeep]
  · right
    have hby : b.length < ye := by
      rcases hob with h | h
      · omega
      · exact h
    exact ⟨Or.inr hby, d1, x1, y1, hr1, by omega, hy1, by omega⟩

theorem entry_step_right_out (a b : List Param) {dm x0 ye : Nat} {h0 : List EStep}
    (hgrid : InGrid a b dm x0 ye h0 ∨ OutGrid a b dm x0 ye)
    (hx : a.length < x0 + 1) :
    OutGrid a b (dm + 1) (x0 + 1) ye := by
  rcases hgrid with ⟨hxle, hyle, hr, _⟩ | ⟨hob, d1, x1, y1, hr1, hx1, hy1, hd1⟩
  · exact ⟨Or.inl (by omega), dm, x0, ye, hr, by omega, le_refl _, by omega⟩
  · refine ⟨?_, d1, x1, y1, hr1, by omega, hy1, by omega⟩
    rcases hob with h | h
    · exact Or.inl (by omega)
    · exact Or.inr h

theorem kstep_eq_down (a b : List Param) (d : Nat) (k : Int) (fr : Int → _Frontier)
    (hgd : goDown d k fr = true) :
    kstep a b d k fr =
      snake a b (fr (k + 1)).x (((fr (k + 1)).x : Int) - k).toNat
        (if 1 ≤ ((fr (k + 1)).x : Int) - k ∧
            ((fr (k + 1)).x : Int) - k ≤ (b.length : Int) then
          (fr (k + 1)).history ++
            [EStep.ins (getP b (((fr (k + 1)).x : Int) - k - 1).toNat).1
              (getP b (((fr (k + 1)).x : Int) - k - 1).toNat).2]
        else if 1 ≤ (fr (k + 1)).x ∧ (fr (k + 1)).x ≤ a.length then
          (fr (k + 1)).history ++
            [EStep.rem (getP a ((fr (k + 1)).x - 1)).1
              (getP a ((fr (k + 1)).x - 1)).2]
        else (fr (k + 1)).history)
        (a.length + b.length + 1) := by
  simp [kstep, hgd]

theorem kstep_eq_right (a b : List Param) (d : Nat) (k : Int) (fr : Int → _Frontier)
    (hgd : goDown d k fr = false) :
    kstep a b d k fr =
      snake a b ((fr (k - 1)).x + 1) ((((fr (k - 1)).x + 1 : Nat) : Int) - k).toNat
        (if (fr (k - 1)).x + 1 ≤ a.length then
          (fr (k - 1)).history ++
            [EStep.rem (getP a (fr (k - 1)).x).1 (getP a (fr (k - 1)).x).2]
        else (fr (k - 1)).history)
        (a.length + b.length + 1) := by
  simp [kstep, hgd]

theorem snake_dom (a b : List Param) {x0 yc : Nat} {h1 : List EStep}
    {x' y' : Nat} {h' : List EStep}
    (hs : snake a b x0 yc h1 (a.length + b.length + 1) = (x', y', h'))
    {xs ys n : Nat} (hchain : DiagChain a b xs ys n)
    (hxs : xs ≤ x0) (hdiag : (x0 : Int) - (yc : Int) = (xs : Int) - (ys : Int)) :
    xs + n ≤ x' := by
  have hle : xs + n ≤ (snake a b x0 yc h1 (a.length + b.length + 1)).1 := by
    apply snake_ge
    · by_cases hn : n = 0
      · omega
      · have := hchain (n - 1) (by omega)
        omega
    · intro t ht
      have hi : x0 - xs + t < n := by omega
      have hc := hchain (x0 - xs + t) hi
      have e1 : xs + (x0 - xs + t) = x0 + t := by omega
      have e2 : ys + (x0 - xs + t) = yc + t := by omega
      rw [e1, e2] at hc
      exact hc
  rw [hs] at hle
  exact hle

theorem kstep_spec (a b : List Param) (d : Nat) (k : Int) (fr : Int → _Frontier)
    (hd : 1 ≤ d) (hk : k ∈ krange d)
    (hold : ∀ k' ∈ krange (d - 1),
      GoodEntry a b (d - 1) k' (fr k') ∧ Dom a b (d - 1) k' (fr k')) :
    ∃ x' y' h', kstep a b d k fr = (x', y', h') ∧
      (x' : Int) - (y' : Int) = k ∧
      (InGrid a b d x' y' h' ∨ OutGrid a b d x' y') ∧
      (∀ xr yr : Nat, Reach a b d xr yr → (xr : Int) - (yr : Int) = k → xr ≤ x') := by
  obtain ⟨hklo, hkhi, hkpar⟩ := mem_krange_iff.mp hk
  have hd1 : d - 1 + 1 = d := by omega
  by_cases hgd : goDown d k fr = true
  · -- down move
    have hk1 : (k + 1) ∈ krange (d - 1) := by
      rcases goDown_iff.mp hgd with h | ⟨hne, _⟩
      · rw [mem_krange_iff]; omega
      · rw [mem_krange_iff]; omega
    obtain ⟨⟨ye, hye, hgrid⟩, hdom1⟩ := hold (k + 1) hk1
    have hx0y : ((fr (k + 1)).x : Int) - k = (ye : Int) + 1 := by omega
    have hy0toNat : (((fr (k + 1)).x : Int) - k).toNat = ye + 1 := by omega
    have hy1toNat : (((fr (k + 1)).x : Int) - k - 1).toNat = ye := by omega
    rw [kstep_eq_down a b d k fr hgd, hy0toNat, hy1toNat, hx0y]
    have hdomcase : ∀ (x' y' : Nat) (h' : List EStep),
        (∀ xs ys n : Nat, DiagChain a b xs ys n → xs ≤ (fr (k + 1)).x →
          (xs : Int) - (ys : Int) = k → xs + n ≤ x') →
        (∀ xr yr : Nat, Reach a b d xr yr → (xr : Int) - (yr : Int) = k → xr ≤ x') := by
      intro x' y' h' hdm xr yr hr hkr
      rcases reach_inv hr with ⟨hd0, _⟩ | ⟨d', xp, yp, xs, ys, n, hdd, hp, hmv, hxr, hyr, hc⟩
      · omega
      · have hdp : d' = d - 1 := by omega
        subst hdp
        have hpb := reach_diag_bound hp
        rcases hmv with ⟨hxs, hys, hxpa⟩ | ⟨hxs, hys, hypb⟩
        · -- right-parent on diagonal k - 1
          have hkp : (xp : Int) - (yp : Int) = k - 1 := by omega
          have hkne : k ≠ -(d : Int) := by
            intro hkk
            omega
          have hkm : (k - 1) ∈ krange (d - 1) := by rw [mem_krange_iff]; omega
          have hxp := (hold (k - 1) hkm).2 xp yp hp hkp
          have hlt : (fr (k - 1)).x < (fr (k + 1)).x := by
            rcases goDown_iff.mp hgd with h | ⟨_, h⟩
            · exact absurd h hkne
            · exact h
          have := hdm xs ys n hc (by omega) (by omega)
          omega
        · -- down-parent on diagonal k + 1
          have hkp : (xp : Int) - (yp : Int) = k + 1 := by omega
          have hxp := hdom1 xp yp hp hkp
          have := hdm xs ys n hc (by omega) (by omega)
          omega
    by_cases hyb : ye + 1 ≤ b.length
    · rw [if_pos (⟨by omega, by omega⟩ :
        1 ≤ (ye : Int) + 1 ∧ (ye : Int) + 1 ≤ (b.length : Int))]
      have hpre := entry_step_down a b hgrid hyb
      rw [hd1] at hpre
      obtain ⟨x', y', h', hs, hdiag, hgrid'⟩ := snake_entry a b d _ _ _ hpre
      refine ⟨x', y', h', hs, by omega, hgrid', ?_⟩
      apply hdomcase x' y' h'
      intro xs ys n hc hxs hdg
      exact snake_dom a b hs hc hxs (by omega)
    · rw [if_neg (by
        intro hcon
        exact absurd hcon.2 (by omega))]
      have hpre := entry_step_down_out a b hgrid (by omega)
      rw [hd1] at hpre
      obtain ⟨x', y', h', hs, hdiag, hgrid'⟩ := snake_entry a b d _ _ _ (Or.inr hpre)
      refine ⟨x', y', h', hs, by omega, hgrid', ?_⟩
      apply hdomcase x' y' h'
      intro xs ys n hc hxs hdg
      exact snake_dom a b hs hc hxs (by omega)
  · -- right move
    have hgdf : goDown d k fr = false := by
      cases hb : goDown d k fr
      · rfl
      · exact absurd hb hgd
    have hnot := goDown_iff.not.mp (by rw [hgdf]; simp)
    push_neg at hnot
    obtain ⟨hkne, hor⟩ := hnot
    have hkm : (k - 1) ∈ krange (d - 1) := by rw [mem_krange_iff]; omega
    obtain ⟨⟨ye, hye, hgrid⟩, hdomm⟩ := hold (k - 1) hkm
    have hx0y : (((fr (k - 1)).x + 1 : Nat) : Int) - k = (ye : Int) := by
      push_cast
      omega
    have hy0toNat : ((((fr (k - 1)).x + 1 : Nat) : Int) - k).toNat = ye := by
      rw [hx0y]
      omega
    rw [kstep_eq_right a b d k fr hgdf, hy0toNat]
    have hdomcase : ∀ (x' y' : Nat) (h' : List EStep),
        (∀ xs ys n : Nat, DiagChain a b xs ys n → xs ≤ (fr (k - 1)).x + 1 →
          (xs : Int) - (ys : Int) = k → xs + n ≤ x') →
        (∀ xr yr : Nat, Reach a b d xr yr → (xr : Int) - (yr : Int) = k → xr ≤ x') := by
      intro x' y' h' hdm xr yr hr hkr
      rcases reach_inv hr with ⟨hd0, _⟩ | ⟨d', xp, yp, xs, ys, n, hdd, hp, hmv, hxr, hyr, hc⟩
      · omega
      · have hdp : d' = d - 1 := by omega
        subst hdp
        have hpb := reach_diag_bound hp
        rcases hmv with ⟨hxs, hys, hxpa⟩ | ⟨hxs, hys, hypb⟩
        · -- right-parent on diagonal k - 1
          have hkp : (xp : Int) - (yp : Int) = k - 1 := by omega
          have hxp := hdomm xp yp hp hkp
          have := hdm xs ys n hc (by omega) (by omega)
          omega
        · -- down-parent on diagonal k + 1
          have hkp : (xp : Int) - (yp : Int) = k + 1 := by omega
          have hkd : k ≠ (d : Int) := by
            intro hkk
            omega
          have hk1 : (k + 1) ∈ krange (d - 1) := by rw [mem_krange_iff]; omega
          have hxp := (hold (k + 1) hk1).2 xp yp hp hkp
          have hge : (fr (k + 1)).x ≤ (fr (k - 1)).x := hor hkd
          have := hdm xs ys n hc (by omega) (by omega)
          omega
    by_cases hxa : (fr (k - 1)).x + 1 ≤ a.length
    · rw [if_pos hxa]
      have hpre := entry_step_right a b hgrid hxa
      rw [hd1] at hpre
      obtain ⟨x', y', h', hs, hdiag, hgrid'⟩ := snake_entry a b d _ _ _ hpre
      refine ⟨x', y', h', hs, by omega, hgrid', ?_⟩
      apply hdomcase x' y' h'
      intro xs ys n hc hxs hdg
      exact snake_dom a b hs hc hxs (by omega)
    · rw [if_neg hxa]
      have hpre := entry_step_right_out a b hgrid (by omega)
      rw [hd1] at hpre
      obtain ⟨x', y', h', hs, hdiag, hgrid'⟩ := snake_entry a b d _ _ _ (Or.inr hpre)
      refine ⟨x', y', h', hs, by omega, hgrid', ?_⟩
      apply hdomcase x' y' h'
      intro xs ys n hc hxs hdg
      exact snake_dom a b hs hc hxs (by omega)

/-! ### The inner and outer loops -/

theorem updFr_same (fr : Int → _Frontier) (k : Int) (v : _Frontier) :
    updFr fr k v k = v := by
  simp [updFr]

theorem updFr_ne (fr : Int → _Frontier) (k : Int) (v : _Frontier) {j : Int}
    (h : j ≠ k) : updFr fr k v j = fr j := by
  simp [updFr, h]

theorem innerLoop_cons (a b : List Param) (d : Nat) (k : Int) (ks : List Int)
    (fr : Int → _Frontier) (x' y' : Nat) (h' : List EStep)
    (hks : kstep a b d k fr = (x', y', h')) :
    innerLoop a b d (k :: ks) fr =
      if a.length ≤ x' ∧ b.length ≤ y' then Sum.inl h'
      else innerLoop a b d ks (updFr fr k ⟨x', h'⟩) := by
  simp [innerLoop, hks]

theorem outerLoop_cons_inl (a b : List Param) (d : Nat) (ds : List Nat)
    (fr : Int → _Frontier) (h : List EStep)
    (hil : innerLoop a b d (krange d) fr = Sum.inl h) :
    outerLoop a b (d :: ds) fr = some h := by
  simp [outerLoop, hil]

theorem outerLoop_cons_inr (a b : List Param) (d : Nat) (ds : List Nat)
    (fr fr' : Int → _Frontier)
    (hil : innerLoop a b d (krange d) fr = Sum.inr fr') :
    outerLoop a b (d :: ds) fr = outerLoop a b ds fr' := by
  simp [outerLoop, hil]

theorem return_ok_of_candidate (a b : List Param) (d : Nat) {x' y' : Nat}
    {h' : List EStep}
    (hgrid : InGrid a b d x' y' h' ∨ OutGrid a b d x' y')
    (htest : a.length ≤ x' ∧ b.length ≤ y') :
    ReturnOK a b d h' := by
  rcases hgrid with ⟨hx, hy, hr, hv⟩ | ⟨hob, d1, x1, y1, hr1, hx1, hy1, hd1⟩
  · have hxe : x' = a.length := le_antisymm hx htest.1
    have hye : y' = b.length := le_antisymm hy htest.2
    subst hxe
    subst hye
    exact Or.inl ⟨hv, hr⟩
  · right
    have hle := reach_le hr1
    refine ⟨d1 + (a.length - x1) + (b.length - y1), ?_, reach_corner_extend hr1⟩
    rcases hob with hgt | hgt
    · omega
    · omega

theorem innerLoop_go (a b : List Param) (d : Nat) (hd : 1 ≤ d) :
    ∀ (ks : List Int) (fr : Int → _Frontier), ks <+ krange d →
    (∀ k' ∈ krange (d - 1),
      GoodEntry a b (d - 1) k' (fr k') ∧ Dom a b (d - 1) k' (fr k')) →
    (∀ k' ∈ krange d, k' ∉ ks → StoredOK a b d k' (fr k')) →
    (∀ h, innerLoop a b d ks fr = Sum.inl h → ReturnOK a b d h) ∧
    (∀ fr', innerLoop a b d ks fr = Sum.inr fr' →
      ∀ k' ∈ krange d, StoredOK a b d k' (fr' k')) := by
  intro ks
  induction ks with
  | nil =>
    intro fr _ _ hnew
    constructor
    · intro h hret
      cases hret
    · intro fr' hret
      injection hret with hfr
      subst hfr
      intro k' hk'
      exact hnew k' hk' (by simp)
  | cons k ks ih =>
    intro fr hsub hold hnew
    have hkmem : k ∈ krange d := hsub.subset (by simp)
    have hnd : (k :: ks).Nodup := List.Nodup.sublist hsub (krange_nodup d)
    have hknotin : k ∉ ks := by
      rw [List.nodup_cons] at hnd
      exact hnd.1
    obtain ⟨x', y', h', hks, hdiag, hgrid, hdom⟩ := kstep_spec a b d k fr hd hkmem hold
    rw [innerLoop_cons a b d k ks fr x' y' h' hks]
    by_cases htest : a.length ≤ x' ∧ b.length ≤ y'
    · rw [if_pos htest]
      constructor
      · intro h hret
        have hh : h' = h := by
          have := hret
          rw [Sum.inl.injEq] at this
          exact this
        subst hh
        exact return_ok_of_candidate a b d hgrid htest
      · intro fr' hret
        cases hret
    · rw [if_neg htest]
      apply ih (updFr fr k ⟨x', h'⟩) (sublist_tail_of_cons hsub)
      · intro k' hk'
        have hne : k' ≠ k := by
          obtain ⟨_, _, p1⟩ := mem_krange_iff.mp hk'
          obtain ⟨_, _, p2⟩ := mem_krange_iff.mp hkmem
          omega
        rw [updFr_ne fr k _ hne]
        exact hold k' hk'
      · intro k' hk' hnotin
        by_cases hke : k' = k
        · subst hke
          rw [updFr_same]
          refine ⟨⟨y', ?_, hgrid⟩, ?_, ?_⟩
          · show (x' : Int) - k' = (y' : Int)
            omega
          · intro y hy
            have hyx : (x' : Int) - k' = (y : Int) := hy
            have hyy : y = y' := by omega
            subst hyy
            exact htest
          · exact hdom
        · rw [updFr_ne fr k _ hke]
          refine hnew k' hk' ?_
          intro hmem
          rcases List.mem_cons.mp hmem with h1 | h1
          · exact hke h1
          · exact hnotin h1

theorem stored_no_reach (a b : List Param) (d : Nat) (fr' : Int → _Frontier)
    (hstored : ∀ k' ∈ krange d, StoredOK a b d k' (fr' k')) :
    ¬ Reach a b d a.length b.length := by
  intro hr
  have hb := reach_diag_bound hr
  have hp := reach_parity hr
  have hkmem : ((a.length : Int) - (b.length : Int)) ∈ krange d := by
    rw [mem_krange_iff]
    omega
  obtain ⟨⟨y, hy, _⟩, hnc, hdom⟩ := hstored _ hkmem
  have hx := hdom a.length b.length hr rfl
  exact hnc y hy ⟨by omega, by omega⟩

theorem kstep_zero (a b : List Param) :
    ∃ x' y' h', kstep a b 0 0 (fun _ => ⟨0, []⟩) = (x', y', h') ∧
      (x' : Int) - (y' : Int) = 0 ∧
      InGrid a b 0 x' y' h' ∧
      (∀ xr yr : Nat, Reach a b 0 xr yr → (xr : Int) - (yr : Int) = 0 → xr ≤ x') := by
  have hgd : goDown 0 0 (fun _ => ⟨0, []⟩) = true := by
    rw [goDown_iff]
    exact Or.inl (by simp)
  have hks : kstep a b 0 0 (fun _ => ⟨0, []⟩) =
      snake a b 0 0 [] (a.length + b.length + 1) := by
    rw [kstep_eq_down a b 0 0 _ hgd]
    norm_num
  rw [hks]
  have hpre : InGrid a b 0 0 0 [] ∨ OutGrid a b 0 0 0 :=
    Or.inl ⟨Nat.zero_le _, Nat.zero_le _, Reach.base, rfl, rfl, rfl⟩
  obtain ⟨x', y', h', hs, hdiag, hgrid'⟩ := snake_entry a b 0 0 0 [] hpre
  have hgridin : InGrid a b 0 x' y' h' := by
    rcases hgrid' with hin | hout
    · exact hin
    · exfalso
      obtain ⟨hob, d1, x1, y1, hr1, hx1, hy1, hd1⟩ := hout
      have hle := reach_le hr1
      have hd10 : d1 = 0 := by omega
      subst hd10
      have hxy1 : x' = x1 ∧ y' = y1 := by omega
      rcases hob with hgt | hgt
      · omega
      · omega
  refine ⟨x', y', h', hs, by omega, hgridin, ?_⟩
  intro xr yr hr hkr
  rcases reach_inv hr with ⟨_, n, hxn, hyn, hc⟩ | ⟨d', _, _, _, _, _, hdd, _⟩
  · subst hxn
    have hle := snake_dom a b hs hc (Nat.zero_le 0) (by omega)
    omega
  · omega

theorem outer_go (a b : List Param) :
    ∀ (n d : Nat) (fr : Int → _Frontier), 1 ≤ d →
    d + n = a.length + b.length + 1 →
    (∀ d2, d2 < d → ¬ Reach a b d2 a.length b.length) →
    (∀ k' ∈ krange (d - 1), StoredOK a b (d - 1) k' (fr k')) →
    ∃ h dr, outerLoop a b (List.range' d n) fr = some h ∧
      Valid a b dr a.length b.length h ∧ Reach a b dr a.length b.length ∧
      (∀ d2, d2 < dr → ¬ Reach a b d2 a.length b.length) := by
  intro n
  induction n with
  | zero =>
    intro d fr hd hsum hc _
    exfalso
    obtain ⟨dd, hdd, hrr⟩ := reach_of_subseq [] a b (List.nil_sublist a) (List.nil_sublist b)
    exact hc dd (by simp at hdd; omega) hrr
  | succ m ih =>
    intro d fr hd hsum hc hprev
    have hrange : List.range' d (m + 1) = d :: List.range' (d + 1) m := rfl
    rw [hrange]
    have hgo := innerLoop_go a b d hd (krange d) fr (List.Sublist.refl _)
      (fun k' hk' => ⟨(hprev k' hk').1, (hprev k' hk').2.2⟩)
      (fun k' hk' hnot => absurd hk' hnot)
    obtain ⟨hretc, hcontc⟩ := hgo
    cases hil : innerLoop a b d (krange d) fr with
    | inl h =>
      rw [outerLoop_cons_inl a b d _ fr h hil]
      rcases hretc h hil with ⟨hv, hr⟩ | ⟨d2, hd2, hr2⟩
      · exact ⟨h, d, rfl, hv, hr, hc⟩
      · exact absurd hr2 (hc d2 hd2)
    | inr fr' =>
      rw [outerLoop_cons_inr a b d _ fr fr' hil]
      have hstored := hcontc fr' hil
      have hnr : ¬ Reach a b d a.length b.length := stored_no_reach a b d fr' hstored
      have hc' : ∀ d2, d2 < d + 1 → ¬ Reach a b d2 a.length b.length := by
        intro d2 hlt
        rcases Nat.lt_or_ge d2 d with h2 | h2
        · exact hc d2 h2
        · have he : d2 = d := by omega
          subst he
          exact hnr
      exact ih (d + 1) fr' (by omega) (by omega) hc' hstored

theorem myersDiff_spec (a b : List Param) :
    ∃ h dr, myersDiff a b = some h ∧
      Valid a b dr a.length b.length h ∧ Reach a b dr a.length b.length ∧
      (∀ d2, d2 < dr → ¬ Reach a b d2 a.length b.length) := by
  rw [myersDiff]
  have hrg : List.range (a.length + b.length + 1) =
      0 :: List.range' 1 (a.length + b.length) := by
    rw [List.range_eq_range']
    rfl
  rw [hrg]
  obtain ⟨x0, y0, h0, hks, hdiag0, hgrid0, hdom0⟩ := kstep_zero a b
  have hkr0 : krange 0 = [0] := rfl
  by_cases htest : a.length ≤ x0 ∧ b.length ≤ y0
  · have hil : innerLoop a b 0 (krange 0) (fun _ => ⟨0, []⟩) = Sum.inl h0 := by
      rw [hkr0, innerLoop_cons a b 0 0 [] _ x0 y0 h0 hks, if_pos htest]
    rw [outerLoop_cons_inl a b 0 _ _ h0 hil]
    obtain ⟨hx, hy, hr, hv⟩ := hgrid0
    have hxe : x0 = a.length := le_antisymm hx htest.1
    have hye : y0 = b.length := le_antisymm hy htest.2
    subst hxe
    subst hye
    exact ⟨h0, 0, rfl, hv, hr, fun d2 h2 => absurd h2 (Nat.not_lt_zero d2)⟩
  · have hil : innerLoop a b 0 (krange 0) (fun _ => ⟨0, []⟩) =
        Sum.inr (updFr (fun _ => ⟨0, []⟩) 0 ⟨x0, h0⟩) := by
      rw [hkr0, innerLoop_cons a b 0 0 [] _ x0 y0 h0 hks, if_neg htest]
      rfl
    rw [outerLoop_cons_inr a b 0 _ _ _ hil]
    apply outer_go a b (a.length + b.length) 1 _ (le_refl 1) (by omega) ?_ ?_
    · intro d2 hd2
      have hz : d2 = 0 := by omega
      subst hz
      intro hr
      have hb := reach_diag_bound hr
      have hd0 := hdom0 a.length b.length hr (by omega)
      exact htest ⟨by omega, by omega⟩
    · intro k' hk'
      have hk0 : k' = 0 := by
        have : k' ∈ krange 0 := hk'
        rw [hkr0] at this
        simpa using this
      subst hk0
      rw [updFr_same]
      refine ⟨⟨y0, ?_, Or.inl hgrid0⟩, ?_, ?_⟩
      · show (x0 : Int) - 0 = (y0 : Int)
        omega
      · intro y hy
        have hyx : (x0 : Int) - 0 = (y : Int) := hy
        have hyy : y = y0 := by omega
        subst hyy
        exact htest
      · exact hdom0

/-! ### Main engine corollaries -/

theorem myersDiff_main (a b : List Param) :
    ∃ h, myersDiff a b = some h ∧ projA h = a ∧ projB h = b ∧
      nonKeep h + 2 * lcsLen a b = a.length + b.length := by
  obtain ⟨h, dr, hsome, ⟨hpa, hpb, hnk⟩, hr, hmin⟩ := myersDiff_spec a b
  obtain ⟨s, hsa, hsb, hd⟩ := reach_gives_subseq hr
  rw [List.take_length] at hsa hsb
  have hub := lcsLen_ge_subseq (a.length + b.length) s a b (le_refl _) hsa hsb
  obtain ⟨w, hwa, hwb, hwlen⟩ := lcsLen_exists (a.length + b.length) a b (le_refl _)
  obtain ⟨dstar, hdstar, hrstar⟩ := reach_of_subseq w a b hwa hwb
  have hge : dr ≤ dstar := by
    by_contra hlt
    exact hmin dstar (by omega) hrstar
  refine ⟨h, hsome, by rw [hpa, List.take_length], by rw [hpb, List.take_length], ?_⟩
  omega

theorem reach_diag_self (a : List Param) : ∀ i, i ≤ a.length → Reach a a 0 i i := by
  intro i
  induction i with
  | zero => intro _; exact Reach.base
  | succ n ih =>
    intro hle
    exact Reach.diag (ih (by omega)) (by omega) (by omega) rfl

theorem myersDiff_self (a : List Param) :
    myersDiff a a = some (a.map fun p => EStep.keep p.1 p.2) := by
  obtain ⟨h, dr, hsome, ⟨hpa, _, hnk⟩, hr, hmin⟩ := myersDiff_spec a a
  have hr0 : Reach a a 0 a.length a.length := reach_diag_self a a.length (le_refl _)
  have hdr : dr = 0 := by
    by_contra hne
    exact hmin 0 (by omega) hr0
  subst hdr
  rw [hsome]
  rw [eq_map_keep_of hnk (by rw [hpa, List.take_length])]

theorem myersDiff_keep_mem (a b : List Param) {h : List EStep}
    (hpa : projA h = a) (hpb : projB h = b)
    {key : String} {shape : List Nat} (hmem : EStep.keep key shape ∈ h) :
    (key, shape) ∈ a ∧ (key, shape) ∈ b := by
  constructor
  · rw [← hpa]
    exact mem_projA.mpr (Or.inl hmem)
  · rw [← hpb]
    exact mem_projB.mpr (Or.inl hmem)

/-! ### Classifier lemmas -/

theorem finStep_keep (A B : List (String × Tensor)) (k : String) (s : List Nat) :
    finStep A B (EStep.keep k s) =
      if rms ((dictGet A k).getD default) ((dictGet B k).getD default) ≠ 0 then
        DStep.mod k s (rms ((dictGet A k).getD default) ((dictGet B k).getD default))
      else DStep.keep k s := rfl

theorem finStep_ins (A B : List (String × Tensor)) (k : String) (s : List Nat) :
    finStep A B (EStep.ins k s) = DStep.ins k s := rfl

theorem finStep_rem (A B : List (String × Tensor)) (k : String) (s : List Nat) :
    finStep A B (EStep.rem k s) = DStep.rem k s := rfl

theorem _finalize_nil (A B : List (String × Tensor)) : _finalize [] A B = [] := rfl

theorem _finalize_cons (st : EStep) (t : List EStep) (A B : List (String × Tensor)) :
    _finalize (st :: t) A B = finStep A B st :: _finalize t A B := rfl

theorem _finalize_length (h : List EStep) (A B : List (String × Tensor)) :
    (_finalize h A B).length = h.length := by
  simp [_finalize]

theorem projAF_finalize (h : List EStep) (A B : List (String × Tensor)) :
    projAF (_finalize h A B) = projA h := by
  induction h with
  | nil => rfl
  | cons st t ih =>
    rw [_finalize_cons]
    cases st with
    | keep k s =>
      rw [finStep_keep]
      by_cases hz : rms ((dictGet A k).getD default) ((dictGet B k).getD default) ≠ 0
      · rw [if_pos hz]
        show (k, s) :: projAF (_finalize t A B) = (k, s) :: projA t
        rw [ih]
      · rw [if_neg hz]
        show (k, s) :: projAF (_finalize t A B) = (k, s) :: projA t
        rw [ih]
    | ins k s =>
      rw [finStep_ins]
      show projAF (_finalize t A B) = projA t
      exact ih
    | rem k s =>
      rw [finStep_rem]
      show (k, s) :: projAF (_finalize t A B) = (k, s) :: projA t
      rw [ih]

theorem projBF_finalize (h : List EStep) (A B : List (String × Tensor)) :
    projBF (_finalize h A B) = projB h := by
  induction h with
  | nil => rfl
  | cons st t ih =>
    rw [_finalize_cons]
    cases st with
    | keep k s =>
      rw [finStep_keep]
      by_cases hz : rms ((dictGet A k).getD default) ((dictGet B k).getD default) ≠ 0
      · rw [if_pos hz]
        show (k, s) :: projBF (_finalize t A B) = (k, s) :: projB t
        rw [ih]
      · rw [if_neg hz]
        show (k, s) :: projBF (_finalize t A B) = (k, s) :: projB t
        rw [ih]
    | ins k s =>
      rw [finStep_ins]
      show (k, s) :: projBF (_finalize t A B) = (k, s) :: projB t
      rw [ih]
    | rem k s =>
      rw [finStep_rem]
      show projBF (_finalize t A B) = projB t
      exact ih

theorem nonKeepF_finalize (h : List EStep) (A B : List (String × Tensor)) :
    nonKeepF (_finalize h A B) = nonKeep h := by
  induction h with
  | nil => rfl
  | cons st t ih =>
    rw [_finalize_cons]
    cases st with
    | keep k s =>
      rw [finStep_keep, nonKeep_keep]
      by_cases hz : rms ((dictGet A k).getD default) ((dictGet B k).getD default) ≠ 0
      · rw [if_pos hz]
        rw [← ih]
        simp [nonKeepF, List.countP_cons, DStep.isKeepLike]
      · rw [if_neg hz]
        rw [← ih]
        simp [nonKeepF, List.countP_cons, DStep.isKeepLike]
    | ins k s =>
      rw [finStep_ins, nonKeep_ins, ← ih]
      simp [nonKeepF, List.countP_cons, DStep.isKeepLike]
    | rem k s =>
      rw [finStep_rem, nonKeep_rem, ← ih]
      simp [nonKeepF, List.countP_cons, DStep.isKeepLike]

/-! ### Distance lemmas -/

theorem sum_sq_nonneg : ∀ (l1 l2 : List ℚ),
    0 ≤ (List.zipWith (fun p q => (p - q) ^ 2) l1 l2).sum := by
  intro l1
  induction l1 with
  | nil => intro l2; simp
  | cons x t ih =>
    intro l2
    cases l2 with
    | nil => simp
    | cons y t2 =>
      simp only [List.zipWith_cons_cons, List.sum_cons]
      have h1 : (0 : ℚ) ≤ (x - y) ^ 2 := sq_nonneg _
      have h2 := ih t2
      linarith

theorem sum_sq_eq_zero_iff : ∀ (l1 l2 : List ℚ), l1.length = l2.length →
    ((List.zipWith (fun p q => (p - q) ^ 2) l1 l2).sum = 0 ↔ l1 = l2) := by
  intro l1
  induction l1 with
  | nil =>
    intro l2 hl
    cases l2 with
    | nil => simp
    | cons y t2 => simp at hl
  | cons x t ih =>
    intro l2 hl
    cases l2 with
    | nil => simp at hl
    | cons y t2 =>
      simp only [List.zipWith_cons_cons, List.sum_cons]
      have hnn1 : (0 : ℚ) ≤ (x - y) ^ 2 := sq_nonneg _
      have hnn2 := sum_sq_nonneg t t2
      have hlen : t.length = t2.length := by simpa using hl
      constructor
      · intro h0
        have h1 : (x - y) ^ 2 = 0 := by linarith
        have h2 : (List.zipWith (fun p q => (p - q) ^ 2) t t2).sum = 0 := by linarith
        have hxy : x = y := by
          have := sq_eq_zero_iff.mp h1
          linarith
        have hts := (ih t2 hlen).mp h2
        rw [hxy, hts]
      · intro h
        injection h with h1 h2
        subst h1
        have := (ih t2 hlen).mpr h2
        simp [this]

theorem msd_nonneg (ta tb : Tensor) : 0 ≤ msd ta tb := by
  rw [msd, sqDiffs]
  apply div_nonneg (sum_sq_nonneg _ _)
  positivity

theorem msd_eq_zero_iff (ta tb : Tensor) (hlen : ta.data.length = tb.data.length) :
    msd ta tb = 0 ↔ ta.data = tb.data := by
  rw [msd, sqDiffs]
  by_cases h0 : ta.data.length = 0
  · have h1 : ta.data = [] := List.length_eq_zero.mp h0
    have h2 : tb.data = [] := List.length_eq_zero.mp (by omega)
    simp [h1, h2]
  · rw [div_eq_zero_iff]
    constructor
    · rintro (hs | hc)
      · exact (sum_sq_eq_zero_iff _ _ hlen).mp hs
      · exact absurd (by exact_mod_cast hc : ta.data.length = 0) h0
    · intro he
      exact Or.inl ((sum_sq_eq_zero_iff _ _ hlen).mpr he)

theorem zip_sq_comm : ∀ (l1 l2 : List ℚ),
    List.zipWith (fun p q => (p - q) ^ 2) l1 l2 =
      List.zipWith (fun p q => (p - q) ^ 2) l2 l1 := by
  intro l1
  induction l1 with
  | nil => intro l2; cases l2 <;> simp
  | cons x t ih =>
    intro l2
    cases l2 with
    | nil => simp
    | cons y t2 =>
      simp only [List.zipWith_cons_cons, ih t2]
      congr 1
      ring

theorem msd_comm (ta tb : Tensor) (hlen : ta.data.length = tb.data.length) :
    msd ta tb = msd tb ta := by
  rw [msd, msd, sqDiffs, sqDiffs, hlen, zip_sq_comm]

theorem msd_self (t : Tensor) : msd t t = 0 :=
  (msd_eq_zero_iff t t rfl).mpr rfl

theorem rms_nonneg (ta tb : Tensor) : 0 ≤ rms ta tb := Real.sqrt_nonneg _

theorem rms_comm (ta tb : Tensor) (hlen : ta.data.length = tb.data.length) :
    rms ta tb = rms tb ta := by
  rw [rms, rms, msd_comm ta tb hlen]

theorem rms_eq_zero_iff (ta tb : Tensor) (hlen : ta.data.length = tb.data.length) :
    rms ta tb = 0 ↔ ta.data = tb.data := by
  rw [rms, Real.sqrt_eq_zero']
  constructor
  · intro hle
    have h1 : ((msd ta tb : ℚ) : ℝ) = 0 := by
      have := msd_nonneg ta tb
      have h2 : (0 : ℝ) ≤ ((msd ta tb : ℚ) : ℝ) := by exact_mod_cast this
      linarith
    have h3 : msd ta tb = 0 := by exact_mod_cast h1
    exact (msd_eq_zero_iff ta tb hlen).mp h3
  · intro he
    have h3 : msd ta tb = 0 := (msd_eq_zero_iff ta tb hlen).mpr he
    rw [h3]
    simp

theorem rms_self (t : Tensor) : rms t t = 0 :=
  (rms_eq_zero_iff t t rfl).mpr rfl

/-! ### Dictionary lemmas -/

theorem dictGet_mem : ∀ {A : List (String × Tensor)} {key : String} {t : Tensor},
    dictGet A key = some t → (key, t) ∈ A := by
  intro A
  induction A with
  | nil => intro key t h; cases h
  | cons kv rest ih =>
    intro key t h
    rw [dictGet] at h
    by_cases hk : kv.1 = key
    · rw [if_pos hk] at h
      injection h with h'
      subst h'
      subst hk
      exact List.mem_cons_self kv rest
    · rw [if_neg hk] at h
      exact List.mem_cons_of_mem kv (ih h)

theorem dictGet_isSome_of_mem : ∀ {A : List (String × Tensor)} {key : String}
    {t : Tensor}, (key, t) ∈ A → ∃ t', dictGet A key = some t' := by
  intro A
  induction A with
  | nil => intro key t h; cases h
  | cons kv rest ih =>
    intro key t h
    rw [dictGet]
    by_cases hk : kv.1 = key
    · rw [if_pos hk]
      exact ⟨kv.2, rfl⟩
    · rw [if_neg hk]
      rcases List.mem_cons.mp h with he | hm
      · exact absurd (by rw [← he]) hk
      · exact ih hm

theorem dictGet_nodup : ∀ {A : List (String × Tensor)} {key : String} {t : Tensor},
    (A.map Prod.fst).Nodup → (key, t) ∈ A → dictGet A key = some t := by
  intro A
  induction A with
  | nil => intro key t _ h; cases h
  | cons kv rest ih =>
    intro key t hnd h
    rw [List.map_cons, List.nodup_cons] at hnd
    rw [dictGet]
    rcases List.mem_cons.mp h with he | hm
    · rw [← he]
      rw [if_pos rfl]
    · have hk : kv.1 ≠ key := by
        intro he2
        apply hnd.1
        rw [he2]
        exact List.mem_map.mpr ⟨(key, t), hm, rfl⟩
      rw [if_neg hk]
      exact ih hnd.2 hm

theorem paramList_mem {A : List (String × Tensor)} {key : String} {s : List Nat} :
    (key, s) ∈ paramList A ↔ ∃ t, (key, t) ∈ A ∧ t.shape = s := by
  simp only [paramList, List.mem_map]
  constructor
  · rintro ⟨kv, hkv, he⟩
    injection he with h1 h2
    exact ⟨kv.2, by rw [← h1]; exact hkv, h2⟩
  · rintro ⟨t, hm, hs⟩
    exact ⟨(key, t), hm, by rw [hs]⟩

theorem paramList_shape_unique {A : List (String × Tensor)} {key : String}
    {s : List Nat} {t : Tensor} (hnd : (A.map Prod.fst).Nodup)
    (hp : (key, s) ∈ paramList A) (hm : (key, t) ∈ A) : t.shape = s := by
  obtain ⟨t', hm', hs'⟩ := paramList_mem.mp hp
  have h1 := dictGet_nodup hnd hm
  have h2 := dictGet_nodup hnd hm'
  rw [h1] at h2
  injection h2 with he
  rw [he, hs']

theorem finStep_cases (A B : List (String × Tensor)) (e : EStep) :
    (∃ k s, e = EStep.keep k s ∧
      (finStep A B e = DStep.keep k s ∨ ∃ dist, finStep A B e = DStep.mod k s dist)) ∨
    (∃ k s, e = EStep.ins k s ∧ finStep A B e = DStep.ins k s) ∨
    (∃ k s, e = EStep.rem k s ∧ finStep A B e = DStep.rem k s) := by
  cases e with
  | keep k s =>
    left
    refine ⟨k, s, rfl, ?_⟩
    rw [finStep_keep]
    by_cases hz : rms ((dictGet A k).getD default) ((dictGet B k).getD default) ≠ 0
    · right
      exact ⟨_, if_pos hz⟩
    · left
      exact if_neg hz
  | ins k s => exact Or.inr (Or.inl ⟨k, s, rfl, rfl⟩)
  | rem k s => exact Or.inr (Or.inr ⟨k, s, rfl, rfl⟩)

theorem keep_finalize_source {h : List EStep} {A B : List (String × Tensor)}
    {key : String} {s : List Nat}
    (hmem : DStep.keep key s ∈ _finalize h A B) : EStep.keep key s ∈ h := by
  rw [_finalize] at hmem
  obtain ⟨e, he, hf⟩ := List.mem_map.mp hmem
  rcases finStep_cases A B e with ⟨k', s', hee, hor⟩ | ⟨k', s', hee, hfi⟩ |
      ⟨k', s', hee, hfi⟩
  · subst hee
    rcases hor with hf2 | ⟨dist, hf2⟩
    · rw [hf2] at hf
      injection hf with e1 e2
      subst e1
      subst e2
      exact he
    · rw [hf2] at hf
      exact DStep.noConfusion hf
  · subst hee
    rw [hfi] at hf
    exact DStep.noConfusion hf
  · subst hee
    rw [hfi] at hf
    exact DStep.noConfusion hf

theorem mod_finalize_source {h : List EStep} {A B : List (String × Tensor)}
    {key : String} {s : List Nat} {dist : ℝ}
    (hmem : DStep.mod key s dist ∈ _finalize h A B) : EStep.keep key s ∈ h := by
  rw [_finalize] at hmem
  obtain ⟨e, he, hf⟩ := List.mem_map.mp hmem
  rcases finStep_cases A B e with ⟨k', s', hee, hor⟩ | ⟨k', s', hee, hfi⟩ |
      ⟨k', s', hee, hfi⟩
  · subst hee
    rcases hor with hf2 | ⟨dist', hf2⟩
    · rw [hf2] at hf
      exact DStep.noConfusion hf
    · rw [hf2] at hf
      injection hf with e1 e2
      subst e1
      subst e2
      exact he
  · subst hee
    rw [hfi] at hf
    exact DStep.noConfusion hf
  · subst hee
    rw [hfi] at hf
    exact DStep.noConfusion hf

theorem disjoint_shape : ∀ (out : List DStep),
    (∀ k s, DStep.keep k s ∉ out) → (∀ k s dist, DStep.mod k s dist ∉ out) →
    countKeepF out = 0 ∧ countModF out = 0 ∧
    countRemF out = (projAF out).length ∧ countInsF out = (projBF out).length ∧
    (riKeys out).Perm
      ((projAF out).map Prod.fst ++ (projBF out).map Prod.fst) := by
  intro out
  induction out with
  | nil =>
    intro _ _
    exact ⟨rfl, rfl, rfl, rfl, List.Perm.refl _⟩
  | cons st t ih =>
    intro hnk hnm
    have hnk2 : ∀ k s, DStep.keep k s ∉ t := fun k s hm =>
      hnk k s (List.mem_cons_of_mem st hm)
    have hnm2 : ∀ k s dist, DStep.mod k s dist ∉ t := fun k s dist hm =>
      hnm k s dist (List.mem_cons_of_mem st hm)
    obtain ⟨h1, h2, h3, h4, h5⟩ := ih hnk2 hnm2
    cases st with
    | keep k s => exact absurd (List.mem_cons_self _ _) (hnk k s)
    | mod k s dist => exact absurd (List.mem_cons_self _ _) (hnm k s dist)
    | rem k s =>
      have c1 : countKeepF (DStep.rem k s :: t) = countKeepF t := by
        simp [countKeepF, List.countP_cons]
      have c2 : countModF (DStep.rem k s :: t) = countModF t := by
        simp [countModF, List.countP_cons]
      have c3 : countRemF (DStep.rem k s :: t) = countRemF t + 1 := by
        simp [countRemF, List.countP_cons]
      have c4 : countInsF (DStep.rem k s :: t) = countInsF t := by
        simp [countInsF, List.countP_cons]
      have p1 : projAF (DStep.rem k s :: t) = (k, s) :: projAF t := rfl
      have p2 : projBF (DStep.rem k s :: t) = projBF t := rfl
      have r1 : riKeys (DStep.rem k s :: t) = k :: riKeys t := rfl
      refine ⟨by omega, by omega, by rw [c3, h3, p1]; simp, by rw [c4, h4, p2], ?_⟩
      rw [r1, p1, p2]
      simp only [List.map_cons, List.cons_append]
      exact h5.cons k
    | ins k s =>
      have c1 : countKeepF (DStep.ins k s :: t) = countKeepF t := by
        simp [countKeepF, List.countP_cons]
      have c2 : countModF (DStep.ins k s :: t) = countModF t := by
        simp [countModF, List.countP_cons]
      have c3 : countRemF (DStep.ins k s :: t) = countRemF t := by
        simp [countRemF, List.countP_cons]
      have c4 : countInsF (DStep.ins k s :: t) = countInsF t + 1 := by
        simp [countInsF, List.countP_cons]
      have p1 : projAF (DStep.ins k s :: t) = projAF t := rfl
      have p2 : projBF (DStep.ins k s :: t) = (k, s) :: projBF t := rfl
      have r1 : riKeys (DStep.ins k s :: t) = k :: riKeys t := rfl
      refine ⟨by omega, by omega, by rw [c3, h3, p1], by rw [c4, h4, p2]; simp, ?_⟩
      rw [r1, p1, p2]
      simp only [List.map_cons]
      exact (h5.cons k).trans List.perm_middle.symm

/-! ### Claim theorems -/

/-- C1: Minimality — for input mappings `A` and `B` with unique keys, the
number of steps of `checkpoint_diff A B` that are not a `Keep` (a `Modify`
counting as a `Keep`) equals the edit distance `|A| + |B| - 2·L`, where `L`
is the length of a longest common subsequence of the `(key, shape)`
projections under structural equality; stated additively as
`nonKeepF out + 2·L = |A| + |B|`. -/
theorem C1_minimality (A B : List (String × Tensor))
    (hA : (A.map Prod.fst).Nodup) (hB : (B.map Prod.fst).Nodup) :
    ∃ out, checkpoint_diff A B = some out ∧
      nonKeepF out + 2 * lcsLen (paramList A) (paramList B) =
        A.length + B.length := by
  obtain ⟨h, hsome, hpa, hpb, hnk⟩ := myersDiff_main (paramList A) (paramList B)
  refine ⟨_finalize h A B, ?_, ?_⟩
  · rw [checkpoint_diff, hsome]
    rfl
  · rw [nonKeepF_finalize]
    have e1 : (paramList A).length = A.length := by simp [paramList]
    have e2 : (paramList B).length = B.length := by simp [paramList]
    omega

/-- Witness for C1 at a concrete input. -/
theorem C1_minimality_witness :
    (([("a", (⟨[2], [1, 1]⟩ : Tensor))].map Prod.fst).Nodup ∧
      ([("b", (⟨[1], [2]⟩ : Tensor))].map Prod.fst).Nodup) ∧
    ∃ out, checkpoint_diff [("a", ⟨[2], [1, 1]⟩)] [("b", ⟨[1], [2]⟩)] = some out ∧
      nonKeepF out + 2 * lcsLen (paramList [("a", ⟨[2], [1, 1]⟩)])
        (paramList [("b", ⟨[1], [2]⟩)]) = 1 + 1 :=
  ⟨⟨by decide, by decide⟩, C1_minimality _ _ (by decide) (by decide)⟩

/-- C10: Edit-script soundness — the `Keep`/`Modify`/`Remove` steps of the
output of `checkpoint_diff`, projected to `(key, shape)` in order, equal
`A`'s projected list, and the `Keep`/`Modify`/`Insert` steps equal `B`'s
projected list, so the script transforms `A` into `B` covering every element
of each input exactly once. -/
theorem C10_soundness (A B : List (String × Tensor))
    (hA : (A.map Prod.fst).Nodup) (hB : (B.map Prod.fst).Nodup) :
    ∃ out, checkpoint_diff A B = some out ∧
      projAF out = paramList A ∧ projBF out = paramList B := by
  obtain ⟨h, hsome, hpa, hpb, _⟩ := myersDiff_main (paramList A) (paramList B)
  refine ⟨_finalize h A B, ?_, ?_, ?_⟩
  · rw [checkpoint_diff, hsome]
    rfl
  · rw [projAF_finalize, hpa]
  · rw [projBF_finalize, hpb]

/-- Witness for C10 at a concrete input. -/
theorem C10_soundness_witness :
    (([("a", (⟨[2], [1, 1]⟩ : Tensor)), ("c", ⟨[3], [0, 0, 0]⟩)].map
        Prod.fst).Nodup ∧
      ([("c", (⟨[3], [0, 0, 0]⟩ : Tensor))].map Prod.fst).Nodup) ∧
    ∃ out, checkpoint_diff [("a", ⟨[2], [1, 1]⟩), ("c", ⟨[3], [0, 0, 0]⟩)]
        [("c", ⟨[3], [0, 0, 0]⟩)] = some out ∧
      projAF out = paramList [("a", ⟨[2], [1, 1]⟩), ("c", ⟨[3], [0, 0, 0]⟩)] ∧
      projBF out = paramList [("c", ⟨[3], [0, 0, 0]⟩)] :=
  ⟨⟨by decide, by decide⟩, C10_soundness _ _ (by decide) (by decide)⟩

/-- C9: Bounded search, unreachable failure — for input mappings with unique
keys the search always returns a result (`checkpoint_diff` is `some`, so the
post-loop assertion modelled by `none` is unreachable), and the distance
level at which it returns, which equals the number of non-`Keep` steps of
the result, is at most `|A| + |B|`. -/
theorem C9_bounded (A B : List (String × Tensor))
    (hA : (A.map Prod.fst).Nodup) (hB : (B.map Prod.fst).Nodup) :
    ∃ out, checkpoint_diff A B = some out ∧
      nonKeepF out ≤ A.length + B.length := by
  obtain ⟨h, hsome, hpa, hpb, hnk⟩ := myersDiff_main (paramList A) (paramList B)
  refine ⟨_finalize h A B, ?_, ?_⟩
  · rw [checkpoint_diff, hsome]
    rfl
  · rw [nonKeepF_finalize]
    have e1 : (paramList A).length = A.length := by simp [paramList]
    have e2 : (paramList B).length = B.length := by simp [paramList]
    omega

/-- Witness for C9 at a concrete input. -/
theorem C9_bounded_witness :
    (([("a", (⟨[2], [1, 1]⟩ : Tensor))].map Prod.fst).Nodup ∧
      (([] : List (String × Tensor)).map Prod.fst).Nodup) ∧
    ∃ out, checkpoint_diff [("a", ⟨[2], [1, 1]⟩)] [] = some out ∧
      nonKeepF out ≤ 1 + 0 :=
  ⟨⟨by decide, by decide⟩, C9_bounded _ _ (by decide) (by decide)⟩

theorem finStep_self (A : List (String × Tensor)) (k : String) (s : List Nat) :
    finStep A A (EStep.keep k s) = DStep.keep k s := by
  rw [finStep_keep, rms_self]
  simp

/-- C3: Identity — for every mapping `A` with unique keys,
`checkpoint_diff A A` returns exactly one `Keep` step per element of `A`, in
`A`'s iteration order, and no `Modify` steps: on identical tensors every
computed distance is zero, so no `Keep` is rewritten. -/
theorem C3_identity (A : List (String × Tensor))
    (hA : (A.map Prod.fst).Nodup) :
    checkpoint_diff A A = some ((paramList A).map fun p => DStep.keep p.1 p.2) := by
  rw [checkpoint_diff, myersDiff_self]
  show some (_finalize ((paramList A).map fun p => EStep.keep p.1 p.2) A A) = _
  congr 1
  rw [_finalize, List.map_map]
  have he : (finStep A A ∘ fun p : Param => EStep.keep p.1 p.2) =
      fun p : Param => DStep.keep p.1 p.2 := by
    funext p
    exact finStep_self A p.1 p.2
  rw [he]

/-- Witness for C3 at a concrete input. -/
theorem C3_identity_witness :
    (([("a", (⟨[2], [1, 1]⟩ : Tensor)), ("b", ⟨[1], [2]⟩)].map Prod.fst).Nodup) ∧
    checkpoint_diff [("a", ⟨[2], [1, 1]⟩), ("b", ⟨[1], [2]⟩)]
        [("a", ⟨[2], [1, 1]⟩), ("b", ⟨[1], [2]⟩)] =
      some [DStep.keep "a" [2], DStep.keep "b" [1]] :=
  ⟨by decide, C3_identity _ (by decide)⟩

/-- C4: Shape change forces a structural edit — a key present in both
mappings whose tensor shapes differ appears in the output as a `Remove`
carrying `A`'s shape and an `Insert` carrying `B`'s shape, and never as a
`Keep` or `Modify`. -/
theorem C4_shape_change (A B : List (String × Tensor))
    (hA : (A.map Prod.fst).Nodup) (hB : (B.map Prod.fst).Nodup)
    (key : String) (tA tB : Tensor)
    (hmA : (key, tA) ∈ A) (hmB : (key, tB) ∈ B) (hne : tA.shape ≠ tB.shape) :
    ∃ out, checkpoint_diff A B = some out ∧
      DStep.rem key tA.shape ∈ out ∧ DStep.ins key tB.shape ∈ out ∧
      (∀ s, DStep.keep key s ∉ out) ∧ (∀ s dist, DStep.mod key s dist ∉ out) := by
  obtain ⟨h, hsome, hpa, hpb, _⟩ := myersDiff_main (paramList A) (paramList B)
  have hnokeep : ∀ s, EStep.keep key s ∉ h := by
    intro s hmem
    obtain ⟨hina, hinb⟩ := myersDiff_keep_mem _ _ hpa hpb hmem
    have e1 := paramList_shape_unique hA hina hmA
    have e2 := paramList_shape_unique hB hinb hmB
    exact hne (by rw [e1, e2])
  have hrem : EStep.rem key tA.shape ∈ h := by
    have hmemp : (key, tA.shape) ∈ projA h := by
      rw [hpa]
      exact paramList_mem.mpr ⟨tA, hmA, rfl⟩
    rcases mem_projA.mp hmemp with hk | hr
    · exact absurd hk (hnokeep _)
    · exact hr
  have hins : EStep.ins key tB.shape ∈ h := by
    have hmemp : (key, tB.shape) ∈ projB h := by
      rw [hpb]
      exact paramList_mem.mpr ⟨tB, hmB, rfl⟩
    rcases mem_projB.mp hmemp with hk | hr
    · exact absurd hk (hnokeep _)
    · exact hr
  refine ⟨_finalize h A B, by rw [checkpoint_diff, hsome]; rfl, ?_, ?_, ?_, ?_⟩
  · rw [_finalize]
    exact List.mem_map.mpr ⟨EStep.rem key tA.shape, hrem, rfl⟩
  · rw [_finalize]
    exact List.mem_map.mpr ⟨EStep.ins key tB.shape, hins, rfl⟩
  · intro s hmem
    exact hnokeep s (keep_finalize_source hmem)
  · intro s dist hmem
    exact hnokeep s (mod_finalize_source hmem)

/-- Witness for C4 at a concrete input. -/
theorem C4_shape_change_witness :
    (([("a", (⟨[2], [1, 1]⟩ : Tensor))].map Prod.fst).Nodup ∧
      ([("a", (⟨[3], [0, 0, 0]⟩ : Tensor))].map Prod.fst).Nodup ∧
      ("a", (⟨[2], [1, 1]⟩ : Tensor)) ∈ [("a", (⟨[2], [1, 1]⟩ : Tensor))] ∧
      ("a", (⟨[3], [0, 0, 0]⟩ : Tensor)) ∈ [("a", (⟨[3], [0, 0, 0]⟩ : Tensor))] ∧
      (⟨[2], [1, 1]⟩ : Tensor).shape ≠ (⟨[3], [0, 0, 0]⟩ : Tensor).shape) ∧
    ∃ out, checkpoint_diff [("a", ⟨[2], [1, 1]⟩)] [("a", ⟨[3], [0, 0, 0]⟩)] =
        some out ∧
      DStep.rem "a" (⟨[2], [1, 1]⟩ : Tensor).shape ∈ out ∧
      DStep.ins "a" (⟨[3], [0, 0, 0]⟩ : Tensor).shape ∈ out ∧
      (∀ s, DStep.keep "a" s ∉ out) ∧ (∀ s dist, DStep.mod "a" s dist ∉ out) :=
  ⟨⟨by decide, by decide, by decide, by decide, by decide⟩,
    C4_shape_change _ _ (by decide) (by decide) "a" _ _ (by decide) (by decide)
      (by decide)⟩

/-- C5: Disjointness — when `A` and `B` share no keys, `checkpoint_diff A B`
has exactly `|A|` `Remove` steps and `|B|` `Insert` steps, zero `Keep` and
zero `Modify` steps, and the multiset of keys over the `Remove` and `Insert`
steps is a permutation of `A`'s keys followed by `B`'s keys, a list without
duplicates, so each key of either input appears exactly once. -/
theorem C5_disjoint (A B : List (String × Tensor))
    (hA : (A.map Prod.fst).Nodup) (hB : (B.map Prod.fst).Nodup)
    (hdisj : ∀ key, key ∈ A.map Prod.fst → key ∉ B.map Prod.fst) :
    ∃ out, checkpoint_diff A B = some out ∧
      countRemF out = A.length ∧ countInsF out = B.length ∧
      countKeepF out = 0 ∧ countModF out = 0 ∧
      (riKeys out).Perm (A.map Prod.fst ++ B.map Prod.fst) ∧
      (A.map Prod.fst ++ B.map Prod.fst).Nodup := by
  obtain ⟨h, hsome, hpa, hpb, _⟩ := myersDiff_main (paramList A) (paramList B)
  have hnokeep : ∀ k s, EStep.keep k s ∉ h := by
    intro k s hmem
    obtain ⟨hina, hinb⟩ := myersDiff_keep_mem _ _ hpa hpb hmem
    obtain ⟨tA, hmA, _⟩ := paramList_mem.mp hina
    obtain ⟨tB, hmB, _⟩ := paramList_mem.mp hinb
    exact hdisj k (List.mem_map.mpr ⟨(k, tA), hmA, rfl⟩)
      (List.mem_map.mpr ⟨(k, tB), hmB, rfl⟩)
  have hnk : ∀ k s, DStep.keep k s ∉ _finalize h A B := fun k s hm =>
    hnokeep k s (keep_finalize_source hm)
  have hnm : ∀ k s dist, DStep.mod k s dist ∉ _finalize h A B := fun k s dist hm =>
    hnokeep k s (mod_finalize_source hm)
  obtain ⟨h1, h2, h3, h4, h5⟩ := disjoint_shape (_finalize h A B) hnk hnm
  have hfa : projAF (_finalize h A B) = paramList A := by rw [projAF_finalize, hpa]
  have hfb : projBF (_finalize h A B) = paramList B := by rw [projBF_finalize, hpb]
  have hka : (paramList A).map Prod.fst = A.map Prod.fst := by
    simp [paramList]
  have hkb : (paramList B).map Prod.fst = B.map Prod.fst := by
    simp [paramList]
  refine ⟨_finalize h A B, by rw [checkpoint_diff, hsome]; rfl, ?_, ?_, h1, h2, ?_, ?_⟩
  · rw [h3, hfa]
    simp [paramList]
  · rw [h4, hfb]
    simp [paramList]
  · rw [hfa, hfb, hka, hkb] at h5
    exact h5
  · refine List.Nodup.append hA hB ?_
    intro x hx1 hx2
    exact hdisj x hx1 hx2

/-- Witness for C5 at a concrete input. -/
theorem C5_disjoint_witness :
    (([("a", (⟨[2], [1, 1]⟩ : Tensor))].map Prod.fst).Nodup ∧
      ([("b", (⟨[1], [2]⟩ : Tensor))].map Prod.fst).Nodup ∧
      (∀ key, key ∈ [("a", (⟨[2], [1, 1]⟩ : Tensor))].map Prod.fst →
        key ∉ [("b", (⟨[1], [2]⟩ : Tensor))].map Prod.fst)) ∧
    ∃ out, checkpoint_diff [("a", ⟨[2], [1, 1]⟩)] [("b", ⟨[1], [2]⟩)] =
        some out ∧
      countRemF out = 1 ∧ countInsF out = 1 ∧
      countKeepF out = 0 ∧ countModF out = 0 ∧
      (riKeys out).Perm (["a"] ++ ["b"]) ∧ (["a"] ++ ["b"] : List String).Nodup :=
  ⟨⟨by decide, by decide, by decide⟩,
    C5_disjoint _ _ (by decide) (by decide) (by decide)⟩

/-- C7: Keep lookups never fail — for input mappings with unique keys, every
`Keep` step in the history handed to `_finalize` carries a key present in
both dictionaries with the recorded shape, so both lookups of the
classification pass are defined. -/
theorem C7_keep_lookups (A B : List (String × Tensor))
    (hA : (A.map Prod.fst).Nodup) (hB : (B.map Prod.fst).Nodup) :
    ∃ h, myersDiff (paramList A) (paramList B) = some h ∧
      ∀ key shape, EStep.keep key shape ∈ h →
        ∃ tA tB, dictGet A key = some tA ∧ dictGet B key = some tB ∧
          tA.shape = shape ∧ tB.shape = shape := by
  obtain ⟨h, hsome, hpa, hpb, _⟩ := myersDiff_main (paramList A) (paramList B)
  refine ⟨h, hsome, ?_⟩
  intro key shape hmem
  obtain ⟨hina, hinb⟩ := myersDiff_keep_mem _ _ hpa hpb hmem
  obtain ⟨tA, hmA, hsA⟩ := paramList_mem.mp hina
  obtain ⟨tB, hmB, hsB⟩ := paramList_mem.mp hinb
  exact ⟨tA, tB, dictGet_nodup hA hmA, dictGet_nodup hB hmB, hsA, hsB⟩

/-- Witness for C7 at a concrete input. -/
theorem C7_keep_lookups_witness :
    (([("a", (⟨[2], [1, 1]⟩ : Tensor))].map Prod.fst).Nodup ∧
      ([("a", (⟨[2], [5, 5]⟩ : Tensor))].map Prod.fst).Nodup) ∧
    ∃ h, myersDiff (paramList [("a", ⟨[2], [1, 1]⟩)])
        (paramList [("a", ⟨[2], [5, 5]⟩)]) = some h ∧
      ∀ key shape, EStep.keep key shape ∈ h →
        ∃ tA tB, dictGet [("a", ⟨[2], [1, 1]⟩)] key = some tA ∧
          dictGet [("a", ⟨[2], [5, 5]⟩)] key = some tB ∧
          tA.shape = shape ∧ tB.shape = shape :=
  ⟨⟨by decide, by decide⟩, C7_keep_lookups _ _ (by decide) (by decide)⟩

/-- C6: Classifier frame property — `_finalize` returns a list of the same
length and order as its input; every `Insert` and `Remove` step is unchanged
at its original position, and a `Keep` step is either kept or replaced in
place by a `Modify` with the same key and shape. -/
theorem C6_frame (h : List EStep) (A B : List (String × Tensor)) :
    (_finalize h A B).length = h.length ∧
    ∀ (i : Nat) (key : String) (s : List Nat),
      (h[i]? = some (EStep.ins key s) →
        (_finalize h A B)[i]? = some (DStep.ins key s)) ∧
      (h[i]? = some (EStep.rem key s) →
        (_finalize h A B)[i]? = some (DStep.rem key s)) ∧
      (h[i]? = some (EStep.keep key s) →
        (_finalize h A B)[i]? = some (DStep.keep key s) ∨
        ∃ dist, (_finalize h A B)[i]? = some (DStep.mod key s dist)) := by
  refine ⟨_finalize_length h A B, ?_⟩
  intro i key s
  refine ⟨?_, ?_, ?_⟩
  · intro hstep
    rw [_finalize, List.getElem?_map, hstep]
    rfl
  · intro hstep
    rw [_finalize, List.getElem?_map, hstep]
    rfl
  · intro hstep
    have hfe : (_finalize h A B)[i]? = some (finStep A B (EStep.keep key s)) := by
      rw [_finalize, List.getElem?_map, hstep]
      rfl
    rw [hfe, finStep_keep]
    by_cases hz : rms ((dictGet A key).getD default)
        ((dictGet B key).getD default) ≠ 0
    · right
      refine ⟨rms ((dictGet A key).getD default) ((dictGet B key).getD default), ?_⟩
      rw [if_pos hz]
    · left
      rw [if_neg hz]

/-- Witness for C6 at a concrete input. -/
theorem C6_frame_witness :
    (_finalize [EStep.keep "a" [1], EStep.ins "b" [2]] [("a", ⟨[1], [0]⟩)]
        [("a", ⟨[1], [0]⟩)]).length = 2 ∧
    (_finalize [EStep.keep "a" [1], EStep.ins "b" [2]] [("a", ⟨[1], [0]⟩)]
        [("a", ⟨[1], [0]⟩)])[1]? = some (DStep.ins "b" [2]) :=
  ⟨(C6_frame [EStep.keep "a" [1], EStep.ins "b" [2]] [("a", ⟨[1], [0]⟩)]
      [("a", ⟨[1], [0]⟩)]).1,
    ((C6_frame [EStep.keep "a" [1], EStep.ins "b" [2]] [("a", ⟨[1], [0]⟩)]
      [("a", ⟨[1], [0]⟩)]).2 1 "b" [2]).1 rfl⟩

/-- C8: Modification detection — for a `Keep` step at position `i`, the
classifier computes the root-mean-square difference of the two tensors
looked up by key, a distance that is nonnegative, symmetric, and zero
exactly when the tensors are elementwise identical (for equal element
counts, as guaranteed by equal shapes), and rewrites the `Keep` into a
`Modify` with the same key and shape carrying that distance if and only if
the distance is nonzero. -/
theorem C8_modification (A B : List (String × Tensor)) (h : List EStep)
    (i : Nat) (key : String) (shape : List Nat) (tA tB : Tensor)
    (hstep : h[i]? = some (EStep.keep key shape))
    (hta : dictGet A key = some tA) (htb : dictGet B key = some tB)
    (hlen : tA.data.length = tB.data.length) :
    0 ≤ rms tA tB ∧ rms tA tB = rms tB tA ∧
    (rms tA tB = 0 ↔ tA.data = tB.data) ∧
    (_finalize h A B)[i]? =
      some (if rms tA tB ≠ 0 then DStep.mod key shape (rms tA tB)
            else DStep.keep key shape) := by
  refine ⟨rms_nonneg tA tB, rms_comm tA tB hlen, rms_eq_zero_iff tA tB hlen, ?_⟩
  rw [_finalize, List.getElem?_map, hstep]
  show some (finStep A B (EStep.keep key shape)) = _
  rw [finStep_keep, hta, htb]
  rfl

/-- Witness for C8 at a concrete input. -/
theorem C8_modification_witness :
    0 ≤ rms ⟨[2], [1, 1]⟩ ⟨[2], [1, 3]⟩ ∧
    rms ⟨[2], [1, 1]⟩ ⟨[2], [1, 3]⟩ = rms ⟨[2], [1, 3]⟩ ⟨[2], [1, 1]⟩ ∧
    (rms ⟨[2], [1, 1]⟩ ⟨[2], [1, 3]⟩ = 0 ↔
      (⟨[2], [1, 1]⟩ : Tensor).data = (⟨[2], [1, 3]⟩ : Tensor).data) ∧
    (_finalize [EStep.keep "a" [2]] [("a", ⟨[2], [1, 1]⟩)]
        [("a", ⟨[2], [1, 3]⟩)])[0]? =
      some (if rms ⟨[2], [1, 1]⟩ ⟨[2], [1, 3]⟩ ≠ 0 then
              DStep.mod "a" [2] (rms ⟨[2], [1, 1]⟩ ⟨[2], [1, 3]⟩)
            else DStep.keep "a" [2]) :=
  C8_modification [("a", ⟨[2], [1, 1]⟩)] [("a", ⟨[2], [1, 3]⟩)]
    [EStep.keep "a" [2]] 0 "a" [2] ⟨[2], [1, 1]⟩ ⟨[2], [1, 3]⟩ rfl rfl rfl rfl

/-- C2 (amended): Tie-break rule — at distance level `d` and diagonal `k`,
the search makes a down move recording an `Insert` exactly when `k = -d`, or
`k ≠ d` and the frontier reached a strictly larger `x` on diagonal `k + 1`
than on diagonal `k - 1` (the source comparison is
`frontier[k - 1].x < frontier[k + 1].x`); otherwise it makes a right move
recording a `Remove`.  The recorded discrete step is stated for in-grid
coordinates, where the corresponding bounds checks of the source pass. -/
theorem C2_tiebreak (a b : List Param) (d : Nat) (k : Int)
    (fr : Int → _Frontier) :
    ((k = -(d : Int) ∨ (k ≠ (d : Int) ∧ (fr (k - 1)).x < (fr (k + 1)).x)) →
      ∀ ye : Nat, ((fr (k + 1)).x : Int) - k = (ye : Int) + 1 →
        ye + 1 ≤ b.length →
        ∃ t, (kstep a b d k fr).2.2 =
          (fr (k + 1)).history ++ EStep.ins (getP b ye).1 (getP b ye).2 :: t ∧
          ∀ e ∈ t, e.isKeep = true) ∧
    (¬(k = -(d : Int) ∨ (k ≠ (d : Int) ∧ (fr (k - 1)).x < (fr (k + 1)).x)) →
      (fr (k - 1)).x + 1 ≤ a.length →
        ∃ t, (kstep a b d k fr).2.2 =
          (fr (k - 1)).history ++
            EStep.rem (getP a (fr (k - 1)).x).1 (getP a (fr (k - 1)).x).2 :: t ∧
          ∀ e ∈ t, e.isKeep = true) := by
  constructor
  · intro hcond ye hye hyb
    have hgd : goDown d k fr = true := goDown_iff.mpr hcond
    have hy1 : (((fr (k + 1)).x : Int) - k - 1).toNat = ye := by omega
    rw [kstep_eq_down a b d k fr hgd, hy1,
      if_pos (⟨by omega, by omega⟩ :
        1 ≤ ((fr (k + 1)).x : Int) - k ∧
          ((fr (k + 1)).x : Int) - k ≤ (b.length : Int))]
    obtain ⟨s, t, hs, ht⟩ := snake_shape a b (a.length + b.length + 1)
      (fr (k + 1)).x (((fr (k + 1)).x : Int) - k).toNat
      ((fr (k + 1)).history ++ [EStep.ins (getP b ye).1 (getP b ye).2])
    rw [hs]
    exact ⟨t, by simp, ht⟩
  · intro hcond hxa
    have hgd : goDown d k fr = false := by
      cases hb : goDown d k fr
      · rfl
      · exact absurd (goDown_iff.mp hb) hcond
    rw [kstep_eq_right a b d k fr hgd, if_pos hxa]
    obtain ⟨s, t, hs, ht⟩ := snake_shape a b (a.length + b.length + 1)
      ((fr (k - 1)).x + 1) ((((fr (k - 1)).x + 1 : Nat) : Int) - k).toNat
      ((fr (k - 1)).history ++
        [EStep.rem (getP a (fr (k - 1)).x).1 (getP a (fr (k - 1)).x).2])
    rw [hs]
    exact ⟨t, by simp, ht⟩

/-- Witness for the amended C2 at a concrete input. -/
theorem C2_tiebreak_witness :
    ∃ t, (kstep [("p", [1])] [("q", [2])] 1 (-1) (fun _ => ⟨0, []⟩)).2.2 =
        EStep.ins "q" [2] :: t ∧ ∀ e ∈ t, e.isKeep = true :=
  (C2_tiebreak [("p", [1])] [("q", [2])] 1 (-1) (fun _ => ⟨0, []⟩)).1
    (Or.inl (by decide)) 0 (by decide) (by decide)

/-- C2 counterexample: at the frontier state the search actually reaches at
distance level 2, diagonal 0, on inputs with a single differing key, the
source makes a down move (recording an `Insert`) although the claim's
condition — frontier strictly further right on diagonal `k - 1` than on
`k + 1` — is false there; consequently the engine with the tie-break as the
claim words it produces a different script than the source. -/
theorem C2_counterexample :
    (goDown 2 0
        (updFr (updFr (updFr (fun _ => ⟨0, []⟩) 0 ⟨0, []⟩) (-1)
          ⟨0, [EStep.ins "w2" [1]]⟩) 1 ⟨1, [EStep.rem "w1" [1]]⟩) = true ∧
      ¬((0 : Int) = -(2 : Int) ∨ ((0 : Int) ≠ (2 : Int) ∧
        ((updFr (updFr (updFr (fun _ => ⟨0, []⟩) 0 ⟨0, []⟩) (-1)
          ⟨0, [EStep.ins "w2" [1]]⟩) 1 ⟨1, [EStep.rem "w1" [1]]⟩)
            ((0 : Int) - 1)).x >
        ((updFr (updFr (updFr (fun _ => ⟨0, []⟩) 0 ⟨0, []⟩) (-1)
          ⟨0, [EStep.ins "w2" [1]]⟩) 1 ⟨1, [EStep.rem "w1" [1]]⟩)
            ((0 : Int) + 1)).x))) ∧
    innerLoop [("w1", [1])] [("w2", [1])] 2 (krange 2)
        (updFr (updFr (updFr (fun _ => ⟨0, []⟩) 0 ⟨0, []⟩) (-1)
          ⟨0, [EStep.ins "w2" [1]]⟩) 1 ⟨1, [EStep.rem "w1" [1]]⟩) =
      Sum.inl [EStep.rem "w1" [1], EStep.ins "w2" [1]] ∧
    myersDiff [("w1", [1])] [("w2", [1])] =
      some [EStep.rem "w1" [1], EStep.ins "w2" [1]] ∧
    myersDiffSpec [("w1", [1])] [("w2", [1])] =
      some [EStep.ins "w2" [1], EStep.rem "w1" [1]] ∧
    myersDiff [("w1", [1])] [("w2", [1])] ≠
      myersDiffSpec [("w1", [1])] [("w2", [1])] := by
  refine ⟨⟨by decide, by decide⟩, by rfl, by decide, by decide, by decide⟩
